import Mathlib

/-!
# Verification of the relsat constraint-propagation engine

A shallow embedding of `relsat/theory.py`: relation symbols own dense
ternary tables (+1 true, -1 false, 0 unknown) over a finite universe,
literals view a symbol's table through a variable map (with repeated
variables collapsed to diagonals and unused variables broadcast), clauses
perform generalized unit propagation, and a theory runs clauses round-robin
to quiescence.

Tables of a symbol of arity `a` over a universe of size `s` are modelled as
total functions `List Nat → Int`; only coordinates of length `a` with
entries below `s` (the cells the numpy array actually has) are meaningful,
and all quantified statements range over those.  numpy views are modelled
as index transformations (shape plus a map from view coordinates to base
coordinates), mirroring `diagonal`, `swapaxes`, shape extension and
`transpose` step by step.  Failed assertions (including the sign-conflict
check) are modelled as `Option.none`; the scheduler's `while` loop is
modelled with explicit fuel.
-/

namespace Relsat

/-- A coordinate tuple into a dense table. -/
abbrev Ix := List Nat

/-- Insert `x` at position `n` (numpy-style axis insertion). -/
def insAt (n : Nat) (x : Nat) (l : List Nat) : List Nat :=
  l.take n ++ x :: l.drop n

/-- Remove the entry at position `n` (numpy-style axis removal). -/
def delAt (n : Nat) (l : List Nat) : List Nat :=
  l.take n ++ l.drop (n + 1)

/-- Swap the entries at positions `i` and `j`. -/
def swapAt2 (i j : Nat) (l : List Nat) : List Nat :=
  (l.set i (l.getD j 0)).set j (l.getD i 0)

/-- Index of the first occurrence of `v` (python `list.index`). -/
def firstIdx : List Nat → Nat → Nat
  | [], _ => 0
  | x :: xs, v => if x = v then 0 else firstIdx xs v + 1

/-- All coordinate tuples of length `n` with entries below `s`:
the cells of a `s^n` dense table, in row-major order. -/
def allIx : Nat → Nat → List Ix
  | 0, _ => [[]]
  | n + 1, s => (List.range s).flatMap fun i => (allIx n s).map fun c => i :: c

/-- `c` is a cell of a `size^arity` table. -/
def validIx (arity size : Nat) (c : Ix) : Bool :=
  c.length = arity && c.all fun x => x < size

/-- A numpy view: a shape together with the map sending view coordinates
to coordinates of the base storage.  All view operations used by
`Literal.create_table` are pure index transformations. -/
structure Arr where
  shape : List Nat
  idx : Ix → Ix

/-- `numpy.diagonal(a, axis1, axis2)` (with `axis1 < axis2`): both axes are
removed and the diagonal axis is appended at the end; the view coordinate
`k` of that last axis is fed back into both removed positions. -/
def Arr.diagonal (a : Arr) (ax1 ax2 : Nat) : Arr :=
  let r := a.shape.length
  { shape := delAt ax1 (delAt ax2 a.shape) ++ [a.shape.getD ax1 0]
    idx := fun c =>
      let k := c.getD (r - 2) 0
      a.idx (insAt ax2 k (insAt ax1 k (c.take (r - 2)))) }

/-- `numpy.swapaxes(a, i, j)`. -/
def Arr.swapaxes (a : Arr) (i j : Nat) : Arr :=
  { shape := swapAt2 i j a.shape
    idx := fun c => a.idx (swapAt2 i j c) }

/-- Shape extension `table.shape = shape + [1, ..., 1]`: appending
broadcast axes of size 1. -/
def Arr.appendOnes (a : Arr) (k : Nat) : Arr :=
  { shape := a.shape ++ List.replicate k 1
    idx := fun c => a.idx (c.take a.shape.length) }

/-- `numpy.transpose(a, axes)`: result axis `i` is `a`'s axis `axes i`, so
the base coordinate at position `p` is the view coordinate at the position
where `p` occurs in `axes`. -/
def Arr.transpose (a : Arr) (axes : List Nat) : Arr :=
  { shape := axes.map fun i => a.shape.getD i 0
    idx := fun c => a.idx ((List.range axes.length).map fun p => c.getD (firstIdx axes p) 0) }

/-- A relational symbol is identified by its arity; its name is irrelevant
to the semantics.  A theory's signature is the list of arities. -/
structure Literal where
  arity : Nat
  sign : Bool
  symIdx : Nat
  vars : List Nat
  deriving DecidableEq, Repr

structure Clause where
  literals : List Literal
  deriving DecidableEq, Repr

structure Theory where
  symbols : List Nat
  clauses : List Clause
  deriving DecidableEq, Repr

/-- The mutable state: one ternary table per symbol index. -/
abbrev St := Nat → Ix → Int

/-- `Clause.arity` (`literals[0].arity` in the source). -/
def Clause.arity (cl : Clause) : Nat :=
  (cl.literals.headD ⟨0, true, 0, []⟩).arity

/-- `Literal.create_table`, one step of the loop over `self.vars`:
repeated axes are diagonalized via `diagonal(idx, len(vars))` followed by
`swapaxes(idx, -1)`; fresh variables are recorded. -/
def viewStep (p : List Nat × Arr) (v : Nat) : List Nat × Arr :=
  if v ∈ p.1 then
    let i := firstIdx p.1 v
    let d := p.2.diagonal i p.1.length
    (p.1, d.swapaxes i (d.shape.length - 1))
  else
    (p.1 ++ [v], p.2)

/-- `Literal.create_table`: build the literal's view of the symbol table as
an index transformation — diagonalize repeated axes, append broadcast axes
of size 1 for unused variables, and permute axes into variable order. -/
def litViewArr (syms : List Nat) (size : Nat) (lit : Literal) : Arr :=
  let symAr := syms.getD lit.symIdx 0
  let base : Arr := ⟨List.replicate symAr size, fun c => c⟩
  let va := lit.vars.foldl viewStep ([], base)
  let a2 := va.2.appendOnes (lit.arity - va.1.length)
  let axes := (List.range lit.arity).map fun v =>
    if v ∈ va.1 then firstIdx va.1 v
    else va.1.length + ((List.range v).filter fun u => u ∉ va.1).length
  a2.transpose axes

/-- The symbol coordinate the literal's built view reads for clause
coordinate `c`. -/
def viewIdx (syms : List Nat) (size : Nat) (lit : Literal) (c : Ix) : Ix :=
  (litViewArr syms size lit).idx c

/-- `Literal.get_table`: the view's values with the literal's sign
applied. -/
def litGetTable (syms : List Nat) (size : Nat) (lit : Literal) (st : St) (c : Ix) : Int :=
  let x := st lit.symIdx (viewIdx syms size lit c)
  if lit.sign then x else -x

/-- `Literal.get_value`: point read through the variable map
(`coords = [coords[var] for var in self.vars]`), sign applied. -/
def litGetValue (lit : Literal) (st : St) (c : Ix) : Int :=
  let x := st lit.symIdx (lit.vars.map fun p => c.getD p 0)
  if lit.sign then x else -x

/-- `Symbol.update_masked`: check that no masked cell holds the opposite
sign (`assert` = `none`), then write `value` into every masked cell; report
whether some masked cell was still unknown. -/
def updateMasked (arity size : Nat) (t : Ix → Int) (mask : Ix → Bool) (v : Int) :
    Option ((Ix → Int) × Bool) :=
  if 0 < v ∧ ((allIx arity size).any fun c => decide (t c < 0) && mask c) then none
  else if v < 0 ∧ ((allIx arity size).any fun c => decide (0 < t c) && mask c) then none
  else some (fun c => if mask c then v else t c,
    (allIx arity size).any fun c => decide (t c = 0) && mask c)

/-- Table component of `Symbol.update_masked` (the input table when the
sign check fails, since the check precedes any write). -/
def updT (arity size : Nat) (t : Ix → Int) (mask : Ix → Bool) (v : Int) : Ix → Int :=
  ((updateMasked arity size t mask v).map Prod.fst).getD t

/-- Changed flag of `Symbol.update_masked`. -/
def updFlag (arity size : Nat) (t : Ix → Int) (mask : Ix → Bool) (v : Int) : Bool :=
  ((updateMasked arity size t mask v).map Prod.snd).getD false

/-- The distinct variables of a literal in order of first occurrence
(the `axes` accumulation in `Literal.update_masked`). -/
def dvars (vars : List Nat) : List Nat :=
  vars.foldl (fun acc v => if v ∈ acc then acc else acc ++ [v]) []

/-- The transposed clause-space mask: axis `j` of the transposed mask is
the clause variable `axesFull j`, where `axesFull` lists distinct used
variables first and the unused ones in increasing order. -/
def maskTrans (arity : Nat) (vars : List Nat) (mask : Ix → Bool) (c : Ix) : Bool :=
  let axesFull := dvars vars ++ ((List.range arity).filter fun u => u ∉ dvars vars)
  mask ((List.range arity).map fun v => c.getD (firstIdx axesFull v) 0)

/-- The mask after OR-reducing the trailing unused-variable axes
(`mask.any(axis=-1)` after collapsing them): a symbol cell is forced if it
is forced under some binding of the dropped variables. -/
def maskReduced (arity size : Nat) (vars : List Nat) (mask : Ix → Bool) (c : Ix) : Bool :=
  if (dvars vars).length < arity then
    (allIx (arity - (dvars vars).length) size).any fun r => maskTrans arity vars mask (c ++ r)
  else maskTrans arity vars mask c

/-- The equality constraint `equs`: the all-true table of the symbol's
shape intersected with one diagonal constraint `cs[pos] = cs[idx]` for
every repeated occurrence `idx` of a variable first seen at `pos`. -/
def equsB (symAr size : Nat) (vars : List Nat) (cs : Ix) : Bool :=
  validIx symAr size cs &&
    (List.range vars.length).all fun idx =>
      !(decide (firstIdx vars (vars.getD idx 0) < idx)) ||
        decide (cs.getD (firstIdx vars (vars.getD idx 0)) 0 = cs.getD idx 0)

/-- The final symbol-space mask of `Literal.update_masked`: the reduced
mask reshaped onto the symbol's coordinates (each first occurrence carries
its variable's coordinate, repeats become broadcast axes of size 1) and
intersected with the equality constraints. -/
def litFinalMask (syms : List Nat) (size : Nat) (lit : Literal) (mask : Ix → Bool) (cs : Ix) :
    Bool :=
  let symAr := syms.getD lit.symIdx 0
  (maskReduced lit.arity size lit.vars mask
      ((dvars lit.vars).map fun v => cs.getD (firstIdx lit.vars v) 0)) &&
    equsB symAr size lit.vars cs

/-- `Literal.update_masked`: check `value ∈ {-1,0,1}`, exit early on an
all-false mask, flip the value for a negative literal, project the
clause-space mask to symbol coordinates and delegate to
`Symbol.update_masked` on the literal's symbol. -/
def litUpdateMasked (syms : List Nat) (size : Nat) (lit : Literal) (mask : Ix → Bool)
    (value : Int) (st : St) : Option (St × Bool) :=
  if ¬(value = -1 ∨ value = 0 ∨ value = 1) then none
  else if ¬((allIx lit.arity size).any fun c => mask c) then some (st, false)
  else
    let v := if lit.sign then value else -value
    let symAr := syms.getD lit.symIdx 0
    if (dvars lit.vars).length = 0 then
      (updateMasked symAr size (st lit.symIdx)
          (fun cs => cs.isEmpty && maskReduced lit.arity size lit.vars mask []) v).map
        fun p => (fun j => if j = lit.symIdx then p.1 else st j, p.2)
    else
      (updateMasked symAr size (st lit.symIdx) (litFinalMask syms size lit mask) v).map
        fun p => (fun j => if j = lit.symIdx then p.1 else st j, p.2)

/-- `Literal.set_constant`: `update_masked` with the all-true broadcast
mask (`numpy.ones([1]*arity)`, which broadcasts to the whole table). -/
def litSetConstant (syms : List Nat) (size : Nat) (lit : Literal) (value : Int) (st : St) :
    Option (St × Bool) :=
  litUpdateMasked syms size lit (fun _ => true) value st

/-- `Clause.get_table`: elementwise ternary disjunction (maximum) of all
literals' sign-adjusted views. -/
def clauseGetTable (syms : List Nat) (size : Nat) (cl : Clause) (st : St) (c : Ix) : Int :=
  match cl.literals with
  | [] => 0
  | l :: ls => ls.foldl (fun acc lit => max acc (litGetTable syms size lit st c))
      (litGetTable syms size l st c)

/-- `Clause.satisfied`: `numpy.amin` of the clause's combined table. -/
def clauseSatisfied (syms : List Nat) (size : Nat) (cl : Clause) (st : St) : Int :=
  match (allIx cl.arity size).map fun c => clauseGetTable syms size cl st c with
  | [] => 0
  | x :: xs => xs.foldl min x

/-- `value1` in `Clause.propagate`: the ternary disjunction of every
literal other than the target. -/
def restMax (syms : List Nat) (size : Nat) (cl : Clause) (st : St) (t : Nat) (c : Ix) : Int :=
  match ((List.range cl.literals.length).filter fun j => j ≠ t).map
      (fun j => litGetTable syms size (cl.literals.getD j ⟨0, true, 0, []⟩) st c) with
  | [] => 0
  | x :: xs => xs.foldl max x

/-- The `forced` mask of `Clause.propagate` for target `t`: all other
literals are definitely false and the target is still unknown. -/
def forcedMask (syms : List Nat) (size : Nat) (cl : Clause) (st : St) (t : Nat) (c : Ix) :
    Bool :=
  decide (restMax syms size cl st t c < 0) &&
    decide (litGetTable syms size (cl.literals.getD t ⟨0, true, 0, []⟩) st c = 0)

/-- One target step of `Clause.propagate`: write `+1` through the target
literal wherever it is forced. -/
def clauseStep (syms : List Nat) (size : Nat) (cl : Clause) (st : St) (t : Nat) :
    Option (St × Bool) :=
  litUpdateMasked syms size (cl.literals.getD t ⟨0, true, 0, []⟩)
    (forcedMask syms size cl st t) 1 st

/-- The target loop of `Clause.propagate`, threading the state and OR-ing
the per-target changed flags. -/
def clausePropagateGo (syms : List Nat) (size : Nat) (cl : Clause) :
    List Nat → St → Bool → Option (St × Bool)
  | [], st, upd => some (st, upd)
  | t :: ts, st, upd =>
    match clauseStep syms size cl st t with
    | none => none
    | some (st', ch) => clausePropagateGo syms size cl ts st' (upd || ch)

/-- `Clause.propagate`: a clause with at most one literal reports no
change; otherwise every literal is taken as target once, in order. -/
def clausePropagate (syms : List Nat) (size : Nat) (cl : Clause) (st : St) :
    Option (St × Bool) :=
  if cl.literals.length ≤ 1 then some (st, false)
  else clausePropagateGo syms size cl (List.range cl.literals.length) st false

/-- `Clause.create_tables`: views carry no state; a unit clause is
immediately forced true everywhere via `set_constant(1)`. -/
def clauseCreateTables (syms : List Nat) (size : Nat) (cl : Clause) (st : St) : Option St :=
  if cl.literals.length = 1 then
    (litSetConstant syms size (cl.literals.getD 0 ⟨0, true, 0, []⟩) 1 st).map Prod.fst
  else some st

def createTablesGo (syms : List Nat) (size : Nat) : List Clause → St → Option St
  | [], st => some st
  | cl :: cls, st =>
    match clauseCreateTables syms size cl st with
    | none => none
    | some st' => createTablesGo syms size cls st'

/-- `Theory.create_tables`: every symbol's table starts all-unknown, then
every clause is initialized in declaration order. -/
def createTables (T : Theory) (size : Nat) : Option St :=
  createTablesGo T.symbols size T.clauses fun _ _ => 0

/-- The state produced by `Theory.create_tables` (all-unknown tables if
initialization failed). -/
def createStateF (T : Theory) (size : Nat) : St :=
  (createTables T size).getD fun _ _ => 0

/-- Result of `Theory.propagate`: a sign conflict propagates uncaught, the
loop may run out of fuel, or it terminates with the final state, the
overall changed flag, and the per-visit trace of clause changed flags. -/
inductive PRes where
  | conflict : PRes
  | timeout : PRes
  | ok : St → Bool → List Bool → PRes

/-- The `while counter < len(self.clauses)` loop of `Theory.propagate`:
visit clause `idx`; a change sets the counter to 1, no change increments
it; `idx` advances cyclically. -/
def propLoop (T : Theory) (size : Nat) :
    Nat → St → Bool → Nat → Nat → List Bool → PRes
  | 0, _, _, _, _, _ => PRes.timeout
  | fuel + 1, st, upd, counter, idx, trace =>
    if counter < T.clauses.length then
      match clausePropagate T.symbols size (T.clauses.getD idx ⟨[]⟩) st with
      | none => PRes.conflict
      | some (st', ch) =>
        propLoop T size fuel st' (upd || ch) (if ch then 1 else counter + 1)
          (if T.clauses.length ≤ idx + 1 then 0 else idx + 1) (trace ++ [ch])
    else PRes.ok st upd trace

/-- `Theory.propagate`, with explicit fuel bounding the number of clause
visits. -/
def theoryPropagate (T : Theory) (size : Nat) (st : St) (fuel : Nat) : PRes :=
  propLoop T size fuel st false 0 0 []

/-- Whether `Theory.propagate` terminated within the given fuel. -/
def propIsOkF (T : Theory) (size : Nat) (st : St) (fuel : Nat) : Bool :=
  match theoryPropagate T size st fuel with
  | PRes.ok _ _ _ => true
  | _ => false

/-- The returned changed flag of `Theory.propagate`. -/
def propFlagF (T : Theory) (size : Nat) (st : St) (fuel : Nat) : Bool :=
  match theoryPropagate T size st fuel with
  | PRes.ok _ u _ => u
  | _ => false

/-- The per-visit trace of clause changed flags of `Theory.propagate`. -/
def propTraceF (T : Theory) (size : Nat) (st : St) (fuel : Nat) : List Bool :=
  match theoryPropagate T size st fuel with
  | PRes.ok _ _ tr => tr
  | _ => []

/-- The final state of `Theory.propagate` (the input state on failure). -/
def propStateF (T : Theory) (size : Nat) (st : St) (fuel : Nat) : St :=
  match theoryPropagate T size st fuel with
  | PRes.ok s _ _ => s
  | _ => st

/-- A sequence of `Theory.propagate` calls (one fuel bound per call);
`none` if any call conflicts or runs out of fuel. -/
def propagateSeq (T : Theory) (size : Nat) : List Nat → St → Option St
  | [], st => some st
  | f :: fs, st =>
    match theoryPropagate T size st f with
    | PRes.ok st' _ _ => propagateSeq T size fs st'
    | _ => none

/-- Final state of a sequence of `Theory.propagate` calls (the input state
if the sequence failed). -/
def seqStateF (T : Theory) (size : Nat) (fuels : List Nat) (st : St) : St :=
  (propagateSeq T size fuels st).getD st

/-- The last `k` visits of a trace all reported no change. -/
def cleanSuffix (tr : List Bool) (k : Nat) : Bool :=
  (tr.drop (tr.length - k)).all fun b => !b

/-- All cells of all tables are ternary (`-1`, `0` or `+1`) — the value
domain of the engine's data model. -/
def TernSt (syms : List Nat) (size : Nat) (st : St) : Prop :=
  ∀ i < syms.length, ∀ c ∈ allIx (syms.getD i 0) size,
    st i c = -1 ∨ st i c = 0 ∨ st i c = 1

instance (syms : List Nat) (size : Nat) (st : St) : Decidable (TernSt syms size st) := by
  unfold TernSt; infer_instance

/-! ## Basic lemmas about coordinates and masked updates -/

theorem mem_allIx {n s : Nat} {c : Ix} :
    c ∈ allIx n s ↔ c.length = n ∧ ∀ x ∈ c, x < s := by
  induction n generalizing c with
  | zero =>
    simp only [allIx, List.mem_singleton]
    constructor
    · rintro rfl; simp
    · rintro ⟨h, -⟩; exact List.eq_nil_of_length_eq_zero h
  | succ n ih =>
    simp only [allIx, List.mem_flatMap, List.mem_map, List.mem_range]
    constructor
    · rintro ⟨i, hi, c', hc', rfl⟩
      obtain ⟨hl, hb⟩ := ih.mp hc'
      refine ⟨by simp [hl], ?_⟩
      intro x hx
      rcases List.mem_cons.mp hx with rfl | hx
      · exact hi
      · exact hb x hx
    · rintro ⟨hl, hb⟩
      match c with
      | [] => simp at hl
      | x :: c' =>
        refine ⟨x, hb x (by simp), c', ih.mpr ⟨by simpa using hl, ?_⟩, rfl⟩
        intro y hy; exact hb y (by simp [hy])

theorem replicate_mem_allIx {n s : Nat} (hs : 1 ≤ s) :
    List.replicate n 0 ∈ allIx n s := by
  rw [mem_allIx]
  constructor
  · simp
  · intro x hx
    rw [List.eq_of_mem_replicate hx]
    exact hs

theorem any_neg_iff {ar sz : Nat} {t : Ix → Int} {mask : Ix → Bool} :
    ((allIx ar sz).any fun c => decide (t c < 0) && mask c) = true ↔
      ∃ c ∈ allIx ar sz, t c < 0 ∧ mask c = true := by
  simp [List.any_eq_true]

theorem any_pos_iff {ar sz : Nat} {t : Ix → Int} {mask : Ix → Bool} :
    ((allIx ar sz).any fun c => decide (0 < t c) && mask c) = true ↔
      ∃ c ∈ allIx ar sz, 0 < t c ∧ mask c = true := by
  simp [List.any_eq_true]

theorem updateMasked_eq_none_iff {ar sz : Nat} {t : Ix → Int} {mask : Ix → Bool} {v : Int} :
    updateMasked ar sz t mask v = none ↔
      (0 < v ∧ ∃ c ∈ allIx ar sz, t c < 0 ∧ mask c = true) ∨
      (v < 0 ∧ ∃ c ∈ allIx ar sz, 0 < t c ∧ mask c = true) := by
  rw [updateMasked]
  by_cases h1 : 0 < v ∧ ((allIx ar sz).any fun c => decide (t c < 0) && mask c) = true
  · rw [if_pos h1]
    exact ⟨fun _ => Or.inl ⟨h1.1, any_neg_iff.mp h1.2⟩, fun _ => rfl⟩
  · rw [if_neg h1]
    by_cases h2 : v < 0 ∧ ((allIx ar sz).any fun c => decide (0 < t c) && mask c) = true
    · rw [if_pos h2]
      exact ⟨fun _ => Or.inr ⟨h2.1, any_pos_iff.mp h2.2⟩, fun _ => rfl⟩
    · rw [if_neg h2]
      constructor
      · intro h; exact absurd h (Option.some_ne_none _)
      · rintro (⟨hv, hex⟩ | ⟨hv, hex⟩)
        · exact absurd ⟨hv, any_neg_iff.mpr hex⟩ h1
        · exact absurd ⟨hv, any_pos_iff.mpr hex⟩ h2

theorem updateMasked_eq_some {ar sz : Nat} {t : Ix → Int} {mask : Ix → Bool} {v : Int}
    (h : updateMasked ar sz t mask v ≠ none) :
    updateMasked ar sz t mask v = some (fun c => if mask c then v else t c,
      (allIx ar sz).any fun c => decide (t c = 0) && mask c) := by
  rw [updateMasked]
  by_cases h1 : 0 < v ∧ ((allIx ar sz).any fun c => decide (t c < 0) && mask c) = true
  · rw [updateMasked] at h
    rw [if_pos h1] at h
    exact absurd rfl h
  · rw [if_neg h1]
    by_cases h2 : v < 0 ∧ ((allIx ar sz).any fun c => decide (0 < t c) && mask c) = true
    · rw [updateMasked] at h
      rw [if_neg h1, if_pos h2] at h
      exact absurd rfl h
    · rw [if_neg h2]

/-! ## C10: `Symbol.update_masked` with value 0 -/

/-- C10: with value 0 no sign check fires so `Symbol.update_masked` never
raises; every masked cell is overwritten with 0 (known cells included,
moving them back to unknown), and it reports a change exactly when some
masked cell already held 0. -/
theorem update_masked_zero_value (ar sz : Nat) (t : Ix → Int) (mask : Ix → Bool) :
    (updateMasked ar sz t mask 0).isSome = true ∧
    (∀ c ∈ allIx ar sz, updT ar sz t mask 0 c = if mask c then 0 else t c) ∧
    (updFlag ar sz t mask 0 = true ↔ ∃ c ∈ allIx ar sz, mask c = true ∧ t c = 0) := by
  have hne : updateMasked ar sz t mask 0 ≠ none := by
    rw [Ne, updateMasked_eq_none_iff]
    rintro (⟨h, -⟩ | ⟨h, -⟩) <;> exact absurd h (by decide)
  have heq := updateMasked_eq_some hne
  refine ⟨by rw [heq]; rfl, ?_, ?_⟩
  · intro c _
    rw [updT, heq]
    rfl
  · rw [updFlag, heq]
    simp only [Option.map_some', Option.getD_some, List.any_eq_true, Bool.and_eq_true,
      decide_eq_true_eq]
    constructor
    · rintro ⟨c, hc, h0, hm⟩; exact ⟨c, hc, hm, h0⟩
    · rintro ⟨c, hc, hm, h0⟩; exact ⟨c, hc, h0, hm⟩

/-- Witness for C10 at a concrete input: a unary table `[1]` under an
all-true mask with value 0 is reset to unknown without raising. -/
theorem update_masked_zero_value_witness :
    (updateMasked 1 1 (fun _ => 1) (fun _ => true) 0).isSome = true ∧
    (∀ c ∈ allIx 1 1, updT 1 1 (fun _ => 1) (fun _ => true) 0 c =
      if (fun _ : Ix => true) c then 0 else (fun _ : Ix => (1 : Int)) c) ∧
    (updFlag 1 1 (fun _ => 1) (fun _ => true) 0 = true ↔
      ∃ c ∈ allIx 1 1, (fun _ : Ix => true) c = true ∧ (fun _ : Ix => (1 : Int)) c = 0) :=
  update_masked_zero_value 1 1 (fun _ => 1) (fun _ => true)

/-! ## C7: `Symbol.update_masked` with a non-zero (ternary) value -/

/-- C7: with a non-zero value the update raises `SignConflict` exactly when
some masked cell holds the opposite sign (the check precedes any write, so
the raising branch carries no new table), and otherwise every masked
unknown cell becomes `value` while every other cell keeps its value. -/
theorem update_masked_conflict_spec (ar sz : Nat) (t : Ix → Int) (mask : Ix → Bool) (v : Int)
    (hv : v = 1 ∨ v = -1)
    (htern : ∀ c ∈ allIx ar sz, t c = -1 ∨ t c = 0 ∨ t c = 1) :
    (updateMasked ar sz t mask v = none ↔
      ∃ c ∈ allIx ar sz, mask c = true ∧ t c = -v) ∧
    ((updateMasked ar sz t mask v).isSome = true →
      ∀ c ∈ allIx ar sz, updT ar sz t mask v c =
        if mask c = true ∧ t c = 0 then v else t c) := by
  constructor
  · rw [updateMasked_eq_none_iff]
    rcases hv with rfl | rfl
    · constructor
      · rintro (⟨-, c, hc, hneg, hm⟩ | ⟨hv, -⟩)
        · refine ⟨c, hc, hm, ?_⟩
          rcases htern c hc with h | h | h <;> omega
        · exact absurd hv (by decide)
      · rintro ⟨c, hc, hm, hval⟩
        exact Or.inl ⟨by decide, c, hc, by omega, hm⟩
    · constructor
      · rintro (⟨hv, -⟩ | ⟨-, c, hc, hpos, hm⟩)
        · exact absurd hv (by decide)
        · refine ⟨c, hc, hm, ?_⟩
          rcases htern c hc with h | h | h <;> omega
      · rintro ⟨c, hc, hm, hval⟩
        exact Or.inr ⟨by decide, c, hc, by omega, hm⟩
  · intro hok c hc
    have hne : updateMasked ar sz t mask v ≠ none := by
      intro h; rw [h] at hok; exact absurd hok (by decide)
    have heq := updateMasked_eq_some hne
    rw [updT, heq]
    simp only [Option.map_some', Option.getD_some]
    by_cases hm : mask c = true
    · by_cases h0 : t c = 0
      · simp [hm, h0]
      · have hval : t c = v := by
          have hnone : ¬(updateMasked ar sz t mask v = none) := hne
          rw [updateMasked_eq_none_iff] at hnone
          rcases htern c hc with h | h | h
          · rcases hv with rfl | rfl
            · exact absurd (Or.inl ⟨by decide, c, hc, by omega, hm⟩) hnone
            · exact h
          · exact absurd h h0
          · rcases hv with rfl | rfl
            · exact h
            · exact absurd (Or.inr ⟨by decide, c, hc, by omega, hm⟩) hnone
        simp [hm, h0, hval]
    · simp [hm]

/-- Witness for C7 at a concrete input: a unary table `[−1]` under an
all-true mask with value `−1` does not raise and keeps the cell. -/
theorem update_masked_conflict_spec_witness :
    ((-1 : Int) = 1 ∨ (-1 : Int) = -1) ∧
    (∀ c ∈ allIx 1 1, (fun _ : Ix => (-1 : Int)) c = -1 ∨
      (fun _ : Ix => (-1 : Int)) c = 0 ∨ (fun _ : Ix => (-1 : Int)) c = 1) ∧
    ((updateMasked 1 1 (fun _ => -1) (fun _ => true) (-1) = none ↔
      ∃ c ∈ allIx 1 1, (fun _ : Ix => true) c = true ∧ (fun _ : Ix => (-1 : Int)) c = -(-1)) ∧
    ((updateMasked 1 1 (fun _ => -1) (fun _ => true) (-1)).isSome = true →
      ∀ c ∈ allIx 1 1, updT 1 1 (fun _ => -1) (fun _ => true) (-1) c =
        if (fun _ : Ix => true) c = true ∧ (fun _ : Ix => (-1 : Int)) c = 0 then -1
        else (fun _ : Ix => (-1 : Int)) c)) :=
  ⟨by decide, by decide,
    update_masked_conflict_spec 1 1 (fun _ => -1) (fun _ => true) (-1) (by decide) (by decide)⟩

/-! ## C6: the changed flag of `Symbol.update_masked` -/

/-- C6 fails as stated: with value 0 and a masked unknown cell the call
reports a change although no cell moves from unknown to known (the cell is
rewritten with 0). -/
theorem update_masked_changed_counterexample :
    ¬ (updFlag 1 1 (fun _ => 0) (fun _ => true) 0 = true ↔
      ∃ c ∈ allIx 1 1, (fun _ : Ix => (0 : Int)) c = 0 ∧
        updT 1 1 (fun _ => 0) (fun _ => true) 0 c ≠ 0) := by
  decide

/-- C6 amended: for a non-zero (ternary) value, `Symbol.update_masked`
returns true exactly when some cell transitioned from unknown (0) to known
(±1) during the call. -/
theorem update_masked_changed_iff (ar sz : Nat) (t : Ix → Int) (mask : Ix → Bool) (v : Int)
    (hv : v = 1 ∨ v = -1)
    (hok : (updateMasked ar sz t mask v).isSome = true) :
    updFlag ar sz t mask v = true ↔
      ∃ c ∈ allIx ar sz, t c = 0 ∧ updT ar sz t mask v c ≠ 0 := by
  have hne : updateMasked ar sz t mask v ≠ none := by
    intro h; rw [h] at hok; exact absurd hok (by decide)
  have heq := updateMasked_eq_some hne
  rw [updFlag, updT, heq]
  simp only [Option.map_some', Option.getD_some, List.any_eq_true, Bool.and_eq_true,
    decide_eq_true_eq]
  constructor
  · rintro ⟨c, hc, h0, hm⟩
    refine ⟨c, hc, h0, ?_⟩
    rw [if_pos hm]
    rcases hv with rfl | rfl <;> decide
  · rintro ⟨c, hc, h0, hch⟩
    refine ⟨c, hc, h0, ?_⟩
    by_cases hm : mask c = true
    · exact hm
    · rw [if_neg hm] at hch
      exact absurd h0 hch

/-- Witness for C6's amended theorem: writing `+1` into a fresh unary
table through an all-true mask reports a change, and indeed the cell went
from 0 to non-zero. -/
theorem update_masked_changed_iff_witness :
    ((1 : Int) = 1 ∨ (1 : Int) = -1) ∧
    ((updateMasked 1 1 (fun _ => 0) (fun _ => true) 1).isSome = true) ∧
    (updFlag 1 1 (fun _ => 0) (fun _ => true) 1 = true ↔
      ∃ c ∈ allIx 1 1, (fun _ : Ix => (0 : Int)) c = 0 ∧
        updT 1 1 (fun _ => 0) (fun _ => true) 1 c ≠ 0) :=
  ⟨by decide, by decide,
    update_masked_changed_iff 1 1 (fun _ => 0) (fun _ => true) 1 (by decide) (by decide)⟩

/-! ## C2: diagonal literals only ever touch diagonal cells -/

/-- `cs` respects every equality forced by repeated variables: coordinates
bound to the same clause variable are equal. -/
def DiagOnly (vars : List Nat) (cs : Ix) : Prop :=
  ∀ i j, i < vars.length → j < vars.length → vars.getD i 0 = vars.getD j 0 →
    cs.getD i 0 = cs.getD j 0

/-- The literal binds some clause variable to more than one symbol
coordinate. -/
def hasRepeat (vars : List Nat) : Bool :=
  (List.range vars.length).any fun i => (List.range vars.length).any fun j =>
    decide (i < j) && decide (vars.getD i 0 = vars.getD j 0)

theorem firstIdx_le {l : List Nat} {i : Nat} (h : i < l.length) :
    firstIdx l (l.getD i 0) ≤ i := by
  induction l generalizing i with
  | nil => simp at h
  | cons x xs ih =>
    match i with
    | 0 => simp [firstIdx]
    | i + 1 =>
      show firstIdx (x :: xs) (xs.getD i 0) ≤ i + 1
      rw [firstIdx]
      split
      · exact Nat.zero_le _
      · exact Nat.succ_le_succ (ih (by simpa using h))

theorem equsB_diag {symAr size : Nat} {vars : List Nat} {cs : Ix}
    (h : equsB symAr size vars cs = true) : DiagOnly vars cs := by
  have hall : ∀ idx < vars.length,
      firstIdx vars (vars.getD idx 0) < idx →
        cs.getD (firstIdx vars (vars.getD idx 0)) 0 = cs.getD idx 0 := by
    intro idx hidx hlt
    have := (List.all_eq_true.mp (Bool.and_eq_true_iff.mp h).2) idx (List.mem_range.mpr hidx)
    simp only [Bool.or_eq_true, Bool.not_eq_true', decide_eq_false_iff_not,
      decide_eq_true_eq] at this
    rcases this with h' | h'
    · exact absurd hlt h'
    · exact h'
  intro i j hi hj hij
  have key : ∀ k < vars.length, cs.getD (firstIdx vars (vars.getD k 0)) 0 = cs.getD k 0 := by
    intro k hk
    rcases Nat.lt_or_ge (firstIdx vars (vars.getD k 0)) k with hlt | hge
    · exact hall k hk hlt
    · have : firstIdx vars (vars.getD k 0) = k := Nat.le_antisymm (firstIdx_le hk) hge
      rw [this]
  have hi' := key i hi
  have hj' := key j hj
  rw [hij] at hi'
  rw [← hi', ← hj']

theorem dvars_append : ∀ (l acc : List Nat),
    ∃ rest, l.foldl (fun acc v => if v ∈ acc then acc else acc ++ [v]) acc = acc ++ rest
  | [], _ => ⟨[], by simp⟩
  | x :: xs, acc => by
    by_cases hx : x ∈ acc
    · obtain ⟨rest, hrest⟩ := dvars_append xs acc
      exact ⟨rest, by simpa [hx] using hrest⟩
    · obtain ⟨rest, hrest⟩ := dvars_append xs (acc ++ [x])
      refine ⟨x :: rest, ?_⟩
      simp only [List.foldl_cons, if_neg hx]
      rw [hrest]
      simp

theorem dvars_ne_nil {vars : List Nat} (h : vars ≠ []) : dvars vars ≠ [] := by
  match vars with
  | [] => exact absurd rfl h
  | x :: xs =>
    rw [dvars]
    obtain ⟨rest, hrest⟩ := dvars_append xs [x]
    simp only [List.foldl_cons]
    have hx : (if x ∈ ([] : List Nat) then ([] : List Nat) else [] ++ [x]) = [x] := by simp
    rw [hx, hrest]
    simp

/-- C2: a literal with a repeated variable only ever writes symbol cells
on the corresponding diagonal — its final symbol-space mask forces all
repeated coordinates to be equal, every off-diagonal cell is left
unchanged by `Literal.update_masked`, and a sign conflict can only be
triggered by a masked diagonal cell. -/
theorem literal_update_masked_diagonal (syms : List Nat) (size : Nat) (lit : Literal)
    (mask : Ix → Bool) (value : Int) (st : St)
    (hdiag : hasRepeat lit.vars = true) :
    (∀ cs, litFinalMask syms size lit mask cs = true → DiagOnly lit.vars cs) ∧
    (∀ st' ch, litUpdateMasked syms size lit mask value st = some (st', ch) →
      ∀ cs, ¬ DiagOnly lit.vars cs → st' lit.symIdx cs = st lit.symIdx cs) ∧
    ((value = -1 ∨ value = 0 ∨ value = 1) →
      litUpdateMasked syms size lit mask value st = none →
      ∃ cs ∈ allIx (syms.getD lit.symIdx 0) size,
        litFinalMask syms size lit mask cs = true ∧ DiagOnly lit.vars cs) := by
  have hvars : lit.vars ≠ [] := by
    intro hnil
    rw [hasRepeat, hnil] at hdiag
    simp [List.any_eq_true] at hdiag
  have hkeep : (dvars lit.vars).length ≠ 0 := by
    intro h0
    exact dvars_ne_nil hvars (List.eq_nil_of_length_eq_zero h0)
  have hmono : ∀ cs, litFinalMask syms size lit mask cs = true → DiagOnly lit.vars cs := by
    intro cs hcs
    exact equsB_diag (Bool.and_eq_true_iff.mp hcs).2
  refine ⟨hmono, ?_, ?_⟩
  · intro st' ch hsome cs hnd
    rw [litUpdateMasked] at hsome
    by_cases hval : value = -1 ∨ value = 0 ∨ value = 1
    · rw [if_neg (not_not_intro hval)] at hsome
      by_cases hany : (allIx lit.arity size).any fun c => mask c
      · rw [if_neg (by simpa using hany)] at hsome
        simp only [hkeep, if_false] at hsome
        rw [Option.map_eq_some'] at hsome
        obtain ⟨p, hp, hpe⟩ := hsome
        have hne : updateMasked (syms.getD lit.symIdx 0) size (st lit.symIdx)
            (litFinalMask syms size lit mask) (if lit.sign then value else -value) ≠ none := by
          rw [hp]; exact Option.some_ne_none _
        have hp' := (updateMasked_eq_some hne).symm.trans hp
        have hpe1 : (fun j => if j = lit.symIdx then p.1 else st j) = st' :=
          congrArg Prod.fst hpe
        have hst1 : st' lit.symIdx = p.1 := by
          rw [← hpe1]
          simp
        have hp1 : p.1 = fun c => if litFinalMask syms size lit mask c = true
            then (if lit.sign = true then value else -value) else st lit.symIdx c :=
          (congrArg Prod.fst (Option.some_injective _ hp')).symm
        have hmaskF : ¬(litFinalMask syms size lit mask cs = true) :=
          fun hm => hnd (hmono cs hm)
        rw [hst1, hp1]
        simp [hmaskF]
      · rw [if_pos (by simpa using hany)] at hsome
        have hst : st = st' := congrArg Prod.fst (Option.some_injective _ hsome)
        rw [← hst]
    · rw [if_pos hval] at hsome
      exact absurd hsome (by simp)
  · intro hval hnone
    rw [litUpdateMasked, if_neg (not_not_intro hval)] at hnone
    by_cases hany : (allIx lit.arity size).any fun c => mask c
    · rw [if_neg (by simpa using hany)] at hnone
      simp only [hkeep, if_false] at hnone
      rw [Option.map_eq_none'] at hnone
      rw [updateMasked_eq_none_iff] at hnone
      rcases hnone with ⟨-, cs, hcs, -, hm⟩ | ⟨-, cs, hcs, -, hm⟩ <;>
        exact ⟨cs, hcs, hm, hmono cs hm⟩
    · rw [if_pos (by simpa using hany)] at hnone
      exact absurd hnone (by simp)

/-- Witness for C2 at a concrete diagonal literal `P(x,x)` over a binary
symbol with universe size 2. -/
theorem literal_update_masked_diagonal_witness :
    hasRepeat ([0, 0] : List Nat) = true ∧
    ((∀ cs, litFinalMask [2] 2 ⟨1, true, 0, [0, 0]⟩ (fun _ => true) cs = true →
        DiagOnly [0, 0] cs) ∧
    (∀ st' ch, litUpdateMasked [2] 2 ⟨1, true, 0, [0, 0]⟩ (fun _ => true) 1
        (fun _ _ => 0) = some (st', ch) →
      ∀ cs, ¬ DiagOnly [0, 0] cs → st' 0 cs = (fun _ _ => (0 : Int)) 0 cs) ∧
    ((1 : Int) = -1 ∨ (1 : Int) = 0 ∨ (1 : Int) = 1 →
      litUpdateMasked [2] 2 ⟨1, true, 0, [0, 0]⟩ (fun _ => true) 1 (fun _ _ => 0) = none →
      ∃ cs ∈ allIx 2 2,
        litFinalMask [2] 2 ⟨1, true, 0, [0, 0]⟩ (fun _ => true) cs = true ∧
          DiagOnly [0, 0] cs)) :=
  ⟨by decide,
    literal_update_masked_diagonal [2] 2 ⟨1, true, 0, [0, 0]⟩ (fun _ => true) 1
      (fun _ _ => 0) (by decide)⟩

/-! ## C8: the built view disagrees with the variable map -/

/-- The literal `+R(x0,x1,x0,x2)` (vars `[0,1,0,2]`, clause arity 3) over a
4-ary symbol, universe size 2. -/
def badLit : Literal := ⟨3, true, 0, [0, 1, 0, 2]⟩

/-- A state whose only symbol (index 0, arity 4) holds `+1` exactly at cell
`(0,1,0,0)`. -/
def badSt : St := fun i c => if i = 0 ∧ c = [0, 1, 0, 0] then 1 else 0

/-- C8 fails on the code: for the literal `+R(x0,x1,x0,x2)` the view built
by `Literal.create_table` reads symbol cell `(v0,v2,v0,v1)` instead of
`(v0,v1,v0,v2)`; at clause coordinates `(0,0,1)` the view (`get_table`)
yields `+1` while reading through the variable map (`get_value`) yields
`0`.  The loop in `create_table` collapses the repeated axis with
`diagonal(idx, len(vars)).swapaxes(idx, -1)`, which moves the processed
axis for `x1` behind the still unprocessed axis for `x2`, so the final
transpose permutes the wrong axes. -/
theorem create_table_view_misaligned :
    viewIdx [4] 2 badLit [0, 0, 1] = [0, 1, 0, 0] ∧
    litGetTable [4] 2 badLit badSt [0, 0, 1] = 1 ∧
    litGetValue badLit badSt [0, 0, 1] = 0 := by
  decide

/-! ## Well-formedness (the constructor assertions of `Literal`) -/

/-- `Literal.__init__` asserts `len(vars) == symbol.arity`; the symbol
reference is modelled as an in-range index into the signature. -/
def LitWF (syms : List Nat) (lit : Literal) : Prop :=
  lit.symIdx < syms.length ∧ lit.vars.length = syms.getD lit.symIdx 0

def ClauseWF (syms : List Nat) (cl : Clause) : Prop :=
  ∀ lit ∈ cl.literals, LitWF syms lit

def TheoryWF (T : Theory) : Prop :=
  ∀ cl ∈ T.clauses, ClauseWF T.symbols cl

instance (syms : List Nat) (lit : Literal) : Decidable (LitWF syms lit) := by
  unfold LitWF; infer_instance

instance (syms : List Nat) (cl : Clause) : Decidable (ClauseWF syms cl) := by
  unfold ClauseWF; infer_instance

instance (T : Theory) : Decidable (TheoryWF T) := by
  unfold TheoryWF; infer_instance

/-! ## List helper lemmas -/

theorem validIx_getD_lt {s : Nat} (hs : 1 ≤ s) :
    ∀ (c : Ix) (p : Nat), (∀ x ∈ c, x < s) → c.getD p 0 < s
  | [], _, _ => by simpa using hs
  | x :: _, 0, h => h x (by simp)
  | _ :: c', p + 1, h => validIx_getD_lt hs c' p fun y hy => h y (by simp [hy])

theorem getD_map_eq {f : Nat → Nat} :
    ∀ (l : List Nat) (k : Nat), k < l.length → (l.map f).getD k 0 = f (l.getD k 0)
  | [], k, h => absurd h (by simp)
  | _ :: _, 0, _ => rfl
  | _ :: l, k + 1, h => getD_map_eq l k (by simpa using h)

theorem firstIdx_lt_length {l : List Nat} {v : Nat} (h : v ∈ l) : firstIdx l v < l.length := by
  induction l with
  | nil => simp at h
  | cons x xs ih =>
    rw [firstIdx]
    split
    · simp
    · next hne =>
      have : v ∈ xs := by
        rcases List.mem_cons.mp h with rfl | h'
        · exact absurd rfl hne
        · exact h'
      simpa using Nat.succ_lt_succ (ih this)

theorem getD_firstIdx {l : List Nat} {v : Nat} (h : v ∈ l) : l.getD (firstIdx l v) 0 = v := by
  induction l with
  | nil => simp at h
  | cons x xs ih =>
    rw [firstIdx]
    split
    · next he => simpa using he
    · next hne =>
      have : v ∈ xs := by
        rcases List.mem_cons.mp h with rfl | h'
        · exact absurd rfl hne
        · exact h'
      simpa using ih this

theorem getD_mem {α : Type} (d : α) :
    ∀ (l : List α) (i : Nat), i < l.length → l.getD i d ∈ l
  | [], i, h => absurd h (by simp)
  | x :: _, 0, _ => by simp
  | _ :: l, i + 1, h => by
    simpa using Or.inr (getD_mem d l i (by simpa using h))

theorem mem_allIx_iff_validIx {n s : Nat} {c : Ix} :
    c ∈ allIx n s ↔ validIx n s c = true := by
  rw [mem_allIx, validIx]
  simp [List.all_eq_true]

theorem allIx_ne_nil {n s : Nat} (hs : 1 ≤ s) : allIx n s ≠ [] :=
  List.ne_nil_of_mem (replicate_mem_allIx hs)

/-! ## State evolution of `Literal.update_masked` -/

/-- Structure of a successful `Literal.update_masked`: either the all-false
fast path left the state untouched, or the state was updated at the
literal's symbol through a symbol-space mask all of whose cells are valid
table cells. -/
theorem litUpdateMasked_some_spec {syms : List Nat} {size : Nat} {lit : Literal}
    {mask : Ix → Bool} {value : Int} {st : St} {st' : St} {ch : Bool}
    (hwf : LitWF syms lit)
    (hsome : litUpdateMasked syms size lit mask value st = some (st', ch)) :
    (st' = st ∧ ch = false) ∨
    ∃ m : Ix → Bool,
      (∀ c, m c = true → validIx (syms.getD lit.symIdx 0) size c = true) ∧
      updateMasked (syms.getD lit.symIdx 0) size (st lit.symIdx) m
        (if lit.sign then value else -value) ≠ none ∧
      ch = ((allIx (syms.getD lit.symIdx 0) size).any fun c =>
        decide (st lit.symIdx c = 0) && m c) ∧
      ∀ j c, st' j c = if j = lit.symIdx then
        (if m c then (if lit.sign then value else -value) else st lit.symIdx c)
        else st j c := by
  rw [litUpdateMasked] at hsome
  by_cases hval : value = -1 ∨ value = 0 ∨ value = 1
  · rw [if_neg (not_not_intro hval)] at hsome
    by_cases hany : ((allIx lit.arity size).any fun c => mask c) = true
    · rw [if_neg (by simpa using hany)] at hsome
      by_cases hkeep : (dvars lit.vars).length = 0
      · rw [if_pos hkeep] at hsome
        rw [Option.map_eq_some'] at hsome
        obtain ⟨p, hp, hpe⟩ := hsome
        right
        refine ⟨fun cs => cs.isEmpty && maskReduced lit.arity size lit.vars mask [], ?_, ?_, ?_, ?_⟩
        · intro c hc
          obtain ⟨hce, -⟩ := Bool.and_eq_true_iff.mp hc
          have hc0 : c = [] := by
            cases c with
            | nil => rfl
            | cons x xs => simp [List.isEmpty] at hce
          have hvars : lit.vars = [] := by
            by_contra hne
            exact dvars_ne_nil hne (List.eq_nil_of_length_eq_zero hkeep)
          have har : syms.getD lit.symIdx 0 = 0 := by
            rw [← hwf.2, hvars]
            rfl
          rw [hc0, har]
          rfl
        · rw [hp]; exact Option.some_ne_none _
        · have hp' := (updateMasked_eq_some (by rw [hp]; exact Option.some_ne_none _)).symm.trans hp
          have hsnd : p.2 = ch := congrArg Prod.snd hpe
          have hb := congrArg Prod.snd (Option.some_injective _ hp')
          exact hsnd.symm.trans hb.symm
        · have hp' := (updateMasked_eq_some (by rw [hp]; exact Option.some_ne_none _)).symm.trans hp
          have hfst : (fun j => if j = lit.symIdx then p.1 else st j) = st' :=
            congrArg Prod.fst hpe
          have hb1 := congrArg Prod.fst (Option.some_injective _ hp')
          intro j c
          by_cases hj : j = lit.symIdx
          · rw [← hfst]
            simp only [if_pos hj]
            rw [← hb1]
          · rw [← hfst]
            simp only [if_neg hj]
      · rw [if_neg hkeep] at hsome
        rw [Option.map_eq_some'] at hsome
        obtain ⟨p, hp, hpe⟩ := hsome
        right
        refine ⟨litFinalMask syms size lit mask, ?_, ?_, ?_, ?_⟩
        · intro c hc
          exact (Bool.and_eq_true_iff.mp (Bool.and_eq_true_iff.mp hc).2).1
        · rw [hp]; exact Option.some_ne_none _
        · have hp' := (updateMasked_eq_some (by rw [hp]; exact Option.some_ne_none _)).symm.trans hp
          have hsnd : p.2 = ch := congrArg Prod.snd hpe
          have hb := congrArg Prod.snd (Option.some_injective _ hp')
          exact hsnd.symm.trans hb.symm
        · have hp' := (updateMasked_eq_some (by rw [hp]; exact Option.some_ne_none _)).symm.trans hp
          have hfst : (fun j => if j = lit.symIdx then p.1 else st j) = st' :=
            congrArg Prod.fst hpe
          have hb1 := congrArg Prod.fst (Option.some_injective _ hp')
          intro j c
          by_cases hj : j = lit.symIdx
          · rw [← hfst]
            simp only [if_pos hj]
            rw [← hb1]
          · rw [← hfst]
            simp only [if_neg hj]
    · rw [if_pos (by simpa using hany)] at hsome
      left
      have h := Option.some_injective _ hsome
      exact ⟨(congrArg Prod.fst h).symm, (congrArg Prod.snd h).symm⟩
  · rw [if_pos hval] at hsome
    exact absurd hsome (by simp)

/-- A successful masked update through a literal with a ternary value
never changes a cell that is already known. -/
theorem litUpdateMasked_mono {syms : List Nat} {size : Nat} {lit : Literal}
    {mask : Ix → Bool} {value : Int} {st st' : St} {ch : Bool}
    (hwf : LitWF syms lit) (hv : value = 1 ∨ value = -1)
    (htern : TernSt syms size st)
    (hsome : litUpdateMasked syms size lit mask value st = some (st', ch)) :
    ∀ i c, st i c ≠ 0 → st' i c = st i c := by
  rcases litUpdateMasked_some_spec hwf hsome with ⟨rfl, -⟩ | ⟨m, hmv, hne, -, hpt⟩
  · intro i c _; rfl
  · intro i c hnz
    rw [hpt i c]
    by_cases hi : i = lit.symIdx
    · rw [if_pos hi]
      by_cases hm : m c = true
      · rw [if_pos hm]
        rw [hi] at hnz
        have hcv : c ∈ allIx (syms.getD lit.symIdx 0) size :=
          mem_allIx_iff_validIx.mpr (hmv c hm)
        have ht3 := htern lit.symIdx hwf.1 c hcv
        rw [ne_eq, updateMasked_eq_none_iff] at hne
        push_neg at hne
        have hval : (if lit.sign then value else -value) = 1 ∨
            (if lit.sign then value else -value) = -1 := by
          cases hs : lit.sign <;> rcases hv with rfl | rfl <;> simp [hs]
        rcases hval with hval | hval <;> rw [hval] at hne ⊢
        · have h1 := (hne.1 (by decide)) c hcv
          have hs1 : st lit.symIdx c = 1 := by
            rcases ht3 with h | h | h
            · exfalso
              have := h1 (by omega)
              rw [hm] at this
              exact absurd this (by decide)
            · exact absurd h hnz
            · exact h
          rw [hi, hs1]
        · have h2 := (hne.2 (by decide)) c hcv
          have hs1 : st lit.symIdx c = -1 := by
            rcases ht3 with h | h | h
            · exact h
            · exact absurd h hnz
            · exfalso
              have := h2 (by omega)
              rw [hm] at this
              exact absurd this (by decide)
          rw [hi, hs1]
      · rw [if_neg hm, hi]
    · rw [if_neg hi]

/-- A successful masked update through a literal with a ternary value
keeps all tables ternary. -/
theorem litUpdateMasked_tern {syms : List Nat} {size : Nat} {lit : Literal}
    {mask : Ix → Bool} {value : Int} {st st' : St} {ch : Bool}
    (hwf : LitWF syms lit) (hv : value = 1 ∨ value = -1)
    (htern : TernSt syms size st)
    (hsome : litUpdateMasked syms size lit mask value st = some (st', ch)) :
    TernSt syms size st' := by
  rcases litUpdateMasked_some_spec hwf hsome with ⟨rfl, -⟩ | ⟨m, hmv, hne, -, hpt⟩
  · exact htern
  · intro i hi c hc
    rw [hpt i c]
    by_cases hij : i = lit.symIdx
    · rw [if_pos hij]
      by_cases hm : m c = true
      · rw [if_pos hm]
        cases hs : lit.sign <;> rcases hv with rfl | rfl <;> simp [hs]
      · rw [if_neg hm, ← hij]
        exact htern i hi c hc
    · rw [if_neg hij]
      exact htern i hi c hc

/-- A masked update through a literal that reports no change leaves the
state exactly as it was (for ternary states): every masked cell already
held the written value, and unmasked cells are untouched. -/
theorem litUpdateMasked_nochange {syms : List Nat} {size : Nat} {lit : Literal}
    {mask : Ix → Bool} {value : Int} {st st' : St}
    (hwf : LitWF syms lit) (hv : value = 1 ∨ value = -1)
    (htern : TernSt syms size st)
    (hsome : litUpdateMasked syms size lit mask value st = some (st', false)) :
    st' = st := by
  rcases litUpdateMasked_some_spec hwf hsome with ⟨rfl, -⟩ | ⟨m, hmv, hne, hch, hpt⟩
  · rfl
  · funext j c
    rw [hpt j c]
    by_cases hj : j = lit.symIdx
    · rw [if_pos hj]
      by_cases hm : m c = true
      · have hcv : c ∈ allIx (syms.getD lit.symIdx 0) size :=
          mem_allIx_iff_validIx.mpr (hmv c hm)
        have hnz : st lit.symIdx c ≠ 0 := by
          intro h0
          have : ((allIx (syms.getD lit.symIdx 0) size).any fun c =>
              decide (st lit.symIdx c = 0) && m c) = true :=
            List.any_eq_true.mpr ⟨c, hcv, by simp [h0, hm]⟩
          rw [← hch] at this
          exact absurd this (by decide)
        have ht3 := htern lit.symIdx hwf.1 c hcv
        rw [ne_eq, updateMasked_eq_none_iff] at hne
        push_neg at hne
        have hval : (if lit.sign then value else -value) = 1 ∨
            (if lit.sign then value else -value) = -1 := by
          cases hs : lit.sign <;> rcases hv with rfl | rfl <;> simp [hs]
        rw [if_pos hm]
        rcases hval with hval | hval <;> rw [hval] at hne ⊢
        · have h1 := (hne.1 (by decide)) c hcv
          have hs1 : st lit.symIdx c = 1 := by
            rcases ht3 with h | h | h
            · exfalso
              have := h1 (by omega)
              rw [hm] at this
              exact absurd this (by decide)
            · exact absurd h hnz
            · exact h
          rw [hj, hs1]
        · have h2 := (hne.2 (by decide)) c hcv
          have hs1 : st lit.symIdx c = -1 := by
            rcases ht3 with h | h | h
            · exact h
            · exact absurd h hnz
            · exfalso
              have := h2 (by omega)
              rw [hm] at this
              exact absurd this (by decide)
          rw [hj, hs1]
      · rw [if_neg hm, hj]
    · rw [if_neg hj]

/-! ## Clause propagation lemmas -/

theorem le_foldl_max : ∀ (l : List Int) (a x : Int), x = a ∨ x ∈ l → x ≤ l.foldl max a
  | [], _, x, h => by
    rcases h with rfl | h
    · exact le_refl x
    · simp at h
  | b :: l, a, x, h => by
    rw [List.foldl_cons]
    rcases h with rfl | h
    · exact le_trans (le_max_left x b) (le_foldl_max l (max x b) _ (Or.inl rfl))
    · rcases List.mem_cons.mp h with rfl | h'
      · exact le_trans (le_max_right a x) (le_foldl_max l (max a x) _ (Or.inl rfl))
      · exact le_foldl_max l (max a b) x (Or.inr h')

theorem clausePropagateGo_mono {syms : List Nat} {size : Nat} {cl : Clause} :
    ∀ (ts : List Nat) (st : St) (upd : Bool) {st' : St} {upd' : Bool},
    (∀ t ∈ ts, t < cl.literals.length) → ClauseWF syms cl → TernSt syms size st →
    clausePropagateGo syms size cl ts st upd = some (st', upd') →
    (∀ i c, st i c ≠ 0 → st' i c = st i c) ∧ TernSt syms size st'
  | [], st, upd, st', upd', _, _, htern, h => by
    rw [clausePropagateGo] at h
    have h' := Option.some_injective _ h
    have h1 : st = st' := congrArg Prod.fst h'
    exact ⟨fun i c _ => (congrFun (congrFun h1 i) c).symm, h1 ▸ htern⟩
  | t :: ts, st, upd, st', upd', hts, hwf, htern, h => by
    rw [clausePropagateGo] at h
    cases hstep : clauseStep syms size cl st t with
    | none => rw [hstep] at h; exact absurd h (by simp)
    | some p =>
      rw [hstep] at h
      obtain ⟨st2, ch⟩ := p
      have hlit : cl.literals.getD t ⟨0, true, 0, []⟩ ∈ cl.literals :=
        getD_mem _ _ t (hts t (by simp))
      have hwl := hwf _ hlit
      have hmono1 := litUpdateMasked_mono hwl (Or.inl rfl) htern hstep
      have htern2 := litUpdateMasked_tern hwl (Or.inl rfl) htern hstep
      have ih := clausePropagateGo_mono ts st2 (upd || ch)
        (fun t' ht' => hts t' (by simp [ht'])) hwf htern2 h
      refine ⟨fun i c hnz => ?_, ih.2⟩
      rw [ih.1 i c (by rw [hmono1 i c hnz]; exact hnz), hmono1 i c hnz]

theorem clausePropagateGo_nochange {syms : List Nat} {size : Nat} {cl : Clause} :
    ∀ (ts : List Nat) (st : St) (upd : Bool) {st' : St},
    (∀ t ∈ ts, t < cl.literals.length) → ClauseWF syms cl → TernSt syms size st →
    clausePropagateGo syms size cl ts st upd = some (st', false) →
    st' = st ∧ upd = false
  | [], st, upd, st', _, _, _, h => by
    rw [clausePropagateGo] at h
    have h' := Option.some_injective _ h
    exact ⟨(congrArg Prod.fst h').symm, congrArg Prod.snd h'⟩
  | t :: ts, st, upd, st', hts, hwf, htern, h => by
    rw [clausePropagateGo] at h
    cases hstep : clauseStep syms size cl st t with
    | none => rw [hstep] at h; exact absurd h (by simp)
    | some p =>
      rw [hstep] at h
      obtain ⟨st2, ch⟩ := p
      have hlit : cl.literals.getD t ⟨0, true, 0, []⟩ ∈ cl.literals :=
        getD_mem _ _ t (hts t (by simp))
      have hwl := hwf _ hlit
      have htern2 := litUpdateMasked_tern hwl (Or.inl rfl) htern hstep
      have ih := clausePropagateGo_nochange ts st2 (upd || ch)
        (fun t' ht' => hts t' (by simp [ht'])) hwf htern2 h
      obtain ⟨rfl, hor⟩ := ih
      obtain ⟨hupd, hch⟩ := by simpa using hor
      rw [hch] at hstep
      exact ⟨litUpdateMasked_nochange hwl (Or.inl rfl) htern hstep, hupd⟩

theorem clausePropagateGo_flag_mono {syms : List Nat} {size : Nat} {cl : Clause} :
    ∀ (ts : List Nat) (st : St) {st' : St} {upd' : Bool},
    clausePropagateGo syms size cl ts st true = some (st', upd') → upd' = true
  | [], st, st', upd', h => by
    rw [clausePropagateGo] at h
    exact (congrArg Prod.snd (Option.some_injective _ h)).symm
  | t :: ts, st, st', upd', h => by
    rw [clausePropagateGo] at h
    cases hstep : clauseStep syms size cl st t with
    | none => rw [hstep] at h; exact absurd h (by simp)
    | some p =>
      rw [hstep] at h
      obtain ⟨st2, ch⟩ := p
      have h' : clausePropagateGo syms size cl ts st2 (true || ch) = some (st', upd') := h
      rw [Bool.true_or] at h'
      exact clausePropagateGo_flag_mono ts st2 h'

theorem clausePropagateGo_flag {syms : List Nat} {size : Nat} {cl : Clause} :
    ∀ (ts : List Nat) (st : St) (upd : Bool) {st' : St} {upd' : Bool},
    (∀ t ∈ ts, t < cl.literals.length) → ClauseWF syms cl → TernSt syms size st →
    clausePropagateGo syms size cl ts st upd = some (st', upd') →
    (upd' = true ↔ upd = true ∨
      ∃ i < syms.length, ∃ c ∈ allIx (syms.getD i 0) size, st' i c ≠ st i c)
  | [], st, upd, st', upd', _, _, _, h => by
    rw [clausePropagateGo] at h
    have h' := Option.some_injective _ h
    obtain ⟨h1, h2⟩ : st = st' ∧ upd = upd' := ⟨congrArg Prod.fst h', congrArg Prod.snd h'⟩
    subst h1; subst h2
    simp
  | t :: ts, st, upd, st', upd', hts, hwf, htern, h => by
    rw [clausePropagateGo] at h
    cases hstep : clauseStep syms size cl st t with
    | none => rw [hstep] at h; exact absurd h (by simp)
    | some p =>
      rw [hstep] at h
      obtain ⟨st2, ch⟩ := p
      have hlit : cl.literals.getD t ⟨0, true, 0, []⟩ ∈ cl.literals :=
        getD_mem _ _ t (hts t (by simp))
      have hwl := hwf _ hlit
      have htern2 := litUpdateMasked_tern hwl (Or.inl rfl) htern hstep
      have hts' : ∀ t' ∈ ts, t' < cl.literals.length := fun t' ht' => hts t' (by simp [ht'])
      by_cases hch : ch = true
      · constructor
        · intro _
          right
          rcases litUpdateMasked_some_spec hwl hstep with ⟨-, hchf⟩ | ⟨m, hmv, hne, hcheq, hpt⟩
          · rw [hchf] at hch; exact absurd hch (by decide)
          · rw [hch] at hcheq
            obtain ⟨c, hcv, hcm⟩ := List.any_eq_true.mp hcheq.symm
            obtain ⟨hc0, hcm'⟩ := Bool.and_eq_true_iff.mp hcm
            have hc0' : st (cl.literals.getD t ⟨0, true, 0, []⟩).symIdx c = 0 := by
              simpa using hc0
            have hst2 : st2 (cl.literals.getD t ⟨0, true, 0, []⟩).symIdx c =
                (if (cl.literals.getD t ⟨0, true, 0, []⟩).sign then (1 : Int) else -1) := by
              rw [hpt _ c, if_pos rfl, if_pos hcm']
            have hnz2 : st2 (cl.literals.getD t ⟨0, true, 0, []⟩).symIdx c ≠ 0 := by
              rw [hst2]
              cases (cl.literals.getD t ⟨0, true, 0, []⟩).sign <;> simp
            have hmono := (clausePropagateGo_mono ts st2 (upd || ch) hts' hwf htern2 h).1
            refine ⟨(cl.literals.getD t ⟨0, true, 0, []⟩).symIdx, hwl.1, c, hcv, ?_⟩
            rw [hmono _ c hnz2, hc0', hst2]
            cases (cl.literals.getD t ⟨0, true, 0, []⟩).sign <;> simp
        · intro _
          have h' : clausePropagateGo syms size cl ts st2 (upd || ch) = some (st', upd') := h
          rw [hch, Bool.or_true] at h'
          exact clausePropagateGo_flag_mono ts st2 h'
      · have hch' : ch = false := by
          cases ch
          · rfl
          · exact absurd rfl hch
        rw [hch'] at hstep
        have hst2 : st2 = st := litUpdateMasked_nochange hwl (Or.inl rfl) htern hstep
        have h' : clausePropagateGo syms size cl ts st2 (upd || ch) = some (st', upd') := h
        rw [hch', Bool.or_false, hst2] at h'
        exact clausePropagateGo_flag ts st upd hts' hwf htern h'

/-! ## C4: `Clause.propagate` -/

/-- C4: a clause with at most one literal propagates to no change with no
table modified; the `forced` mask of each target step is sound — wherever
it is set, the disjunction of all other literals' views is definitely
false and the target's view is still unknown, so every other literal's
view reads negative there; and the returned flag is true exactly when some
table cell changed during the call.  Targets are taken once each, in
clause order, by definition of the propagation loop. -/
theorem clause_propagate_spec (syms : List Nat) (size : Nat) (cl : Clause) (st : St)
    (hwf : ClauseWF syms cl) (htern : TernSt syms size st) :
    (∀ (cl' : Clause) (st0 : St), cl'.literals.length ≤ 1 →
      clausePropagate syms size cl' st0 = some (st0, false)) ∧
    (∀ (t : Nat) (c : Ix), forcedMask syms size cl st t c = true →
      (∀ j < cl.literals.length, j ≠ t →
        litGetTable syms size (cl.literals.getD j ⟨0, true, 0, []⟩) st c < 0) ∧
      litGetTable syms size (cl.literals.getD t ⟨0, true, 0, []⟩) st c = 0) ∧
    (∀ (st' : St) (upd : Bool), clausePropagate syms size cl st = some (st', upd) →
      (upd = true ↔
        ∃ i < syms.length, ∃ c ∈ allIx (syms.getD i 0) size, st' i c ≠ st i c)) := by
  refine ⟨?_, ?_, ?_⟩
  · intro cl' st0 hle
    rw [clausePropagate, if_pos hle]
  · intro t c hforced
    rw [forcedMask] at hforced
    obtain ⟨hrest, htgt⟩ := Bool.and_eq_true_iff.mp hforced
    rw [decide_eq_true_eq] at hrest htgt
    refine ⟨?_, htgt⟩
    intro j hj hjt
    have hmem : litGetTable syms size (cl.literals.getD j ⟨0, true, 0, []⟩) st c ∈
        ((List.range cl.literals.length).filter fun j' => j' ≠ t).map
          (fun j' => litGetTable syms size (cl.literals.getD j' ⟨0, true, 0, []⟩) st c) :=
      List.mem_map.mpr ⟨j, List.mem_filter.mpr ⟨List.mem_range.mpr hj, by simpa using hjt⟩, rfl⟩
    rw [restMax] at hrest
    cases hL : ((List.range cl.literals.length).filter fun j' => j' ≠ t).map
        (fun j' => litGetTable syms size (cl.literals.getD j' ⟨0, true, 0, []⟩) st c) with
    | nil => rw [hL] at hmem; simp at hmem
    | cons x xs =>
      rw [hL] at hrest hmem
      have hle := le_foldl_max xs x _ (by
        rcases List.mem_cons.mp hmem with h | h
        · exact Or.inl h
        · exact Or.inr h)
      calc litGetTable syms size (cl.literals.getD j ⟨0, true, 0, []⟩) st c
          ≤ xs.foldl max x := hle
        _ < 0 := by simpa using hrest
  · intro st' upd h
    rw [clausePropagate] at h
    by_cases hle : cl.literals.length ≤ 1
    · rw [if_pos hle] at h
      have h' := Option.some_injective _ h
      obtain ⟨h1, h2⟩ : st = st' ∧ false = upd := ⟨congrArg Prod.fst h', congrArg Prod.snd h'⟩
      subst h1; subst h2
      simp
    · rw [if_neg hle] at h
      have := clausePropagateGo_flag (List.range cl.literals.length) st false
        (fun t' ht' => List.mem_range.mp ht') hwf htern h
      simpa using this

/-- Witness for C4 on the clause `¬P(x) ∨ Q(x)` over unary symbols with
universe size 1, `P` seeded true: propagation forces `Q` and reports the
change. -/
theorem clause_propagate_spec_witness :
    ClauseWF [1, 1] ⟨[⟨1, false, 0, [0]⟩, ⟨1, true, 1, [0]⟩]⟩ ∧
    TernSt [1, 1] 1 (fun i _ => if i = 0 then 1 else 0) ∧
    ((∀ (cl' : Clause) (st0 : St), cl'.literals.length ≤ 1 →
      clausePropagate [1, 1] 1 cl' st0 = some (st0, false)) ∧
    (∀ (t : Nat) (c : Ix), forcedMask [1, 1] 1 ⟨[⟨1, false, 0, [0]⟩, ⟨1, true, 1, [0]⟩]⟩
        (fun i _ => if i = 0 then 1 else 0) t c = true →
      (∀ j < (⟨[⟨1, false, 0, [0]⟩, ⟨1, true, 1, [0]⟩]⟩ : Clause).literals.length, j ≠ t →
        litGetTable [1, 1] 1
          ((⟨[⟨1, false, 0, [0]⟩, ⟨1, true, 1, [0]⟩]⟩ : Clause).literals.getD j
            ⟨0, true, 0, []⟩) (fun i _ => if i = 0 then 1 else 0) c < 0) ∧
      litGetTable [1, 1] 1
        ((⟨[⟨1, false, 0, [0]⟩, ⟨1, true, 1, [0]⟩]⟩ : Clause).literals.getD t
          ⟨0, true, 0, []⟩) (fun i _ => if i = 0 then 1 else 0) c = 0) ∧
    (∀ (st' : St) (upd : Bool), clausePropagate [1, 1] 1
        ⟨[⟨1, false, 0, [0]⟩, ⟨1, true, 1, [0]⟩]⟩ (fun i _ => if i = 0 then 1 else 0) =
          some (st', upd) →
      (upd = true ↔
        ∃ i < ([1, 1] : List Nat).length, ∃ c ∈ allIx (([1, 1] : List Nat).getD i 0) 1,
          st' i c ≠ (fun i _ => if i = 0 then (1 : Int) else 0) i c))) :=
  ⟨by decide, by decide,
    clause_propagate_spec [1, 1] 1 ⟨[⟨1, false, 0, [0]⟩, ⟨1, true, 1, [0]⟩]⟩
      (fun i _ => if i = 0 then 1 else 0) (by decide) (by decide)⟩

/-! ## Scheduler loop lemmas -/

theorem getD_eq_default_of_le {α : Type} (d : α) :
    ∀ (l : List α) (i : Nat), l.length ≤ i → l.getD i d = d
  | [], i, _ => by cases i <;> rfl
  | x :: l, 0, h => by simp at h
  | _ :: l, i + 1, h => getD_eq_default_of_le d l i (by simpa using h)

theorem theoryWF_getD {T : Theory} (hwf : TheoryWF T) (k : Nat) :
    ClauseWF T.symbols (T.clauses.getD k ⟨[]⟩) := by
  by_cases hk : k < T.clauses.length
  · exact hwf _ (getD_mem _ _ k hk)
  · rw [getD_eq_default_of_le _ _ k (by omega)]
    intro lit hl
    simp at hl

theorem clausePropagate_mono {syms : List Nat} {size : Nat} {cl : Clause}
    {st st' : St} {upd : Bool} (hwf : ClauseWF syms cl) (htern : TernSt syms size st)
    (h : clausePropagate syms size cl st = some (st', upd)) :
    (∀ i c, st i c ≠ 0 → st' i c = st i c) ∧ TernSt syms size st' := by
  rw [clausePropagate] at h
  by_cases hle : cl.literals.length ≤ 1
  · rw [if_pos hle] at h
    have h' := Option.some_injective _ h
    have h1 : st = st' := congrArg Prod.fst h'
    exact ⟨fun i c _ => (congrFun (congrFun h1 i) c).symm, h1 ▸ htern⟩
  · rw [if_neg hle] at h
    exact clausePropagateGo_mono (List.range cl.literals.length) st false
      (fun t ht => List.mem_range.mp ht) hwf htern h

theorem clausePropagate_nochange {syms : List Nat} {size : Nat} {cl : Clause}
    {st st' : St} (hwf : ClauseWF syms cl) (htern : TernSt syms size st)
    (h : clausePropagate syms size cl st = some (st', false)) :
    st' = st := by
  rw [clausePropagate] at h
  by_cases hle : cl.literals.length ≤ 1
  · rw [if_pos hle] at h
    exact (congrArg Prod.fst (Option.some_injective _ h)).symm
  · rw [if_neg hle] at h
    exact (clausePropagateGo_nochange (List.range cl.literals.length) st false
      (fun t ht => List.mem_range.mp ht) hwf htern h).1

theorem propLoop_mono {T : Theory} {size : Nat} (hwf : TheoryWF T) :
    ∀ (fuel : Nat) (st : St) (upd : Bool) (counter idx : Nat) (trace : List Bool)
      {st' : St} {u : Bool} {tr : List Bool},
    TernSt T.symbols size st →
    propLoop T size fuel st upd counter idx trace = PRes.ok st' u tr →
    (∀ i c, st i c ≠ 0 → st' i c = st i c) ∧ TernSt T.symbols size st'
  | 0, st, upd, counter, idx, trace, st', u, tr, _, h => PRes.noConfusion h
  | fuel + 1, st, upd, counter, idx, trace, st', u, tr, htern, h => by
    rw [propLoop] at h
    by_cases hc : counter < T.clauses.length
    · rw [if_pos hc] at h
      cases hcp : clausePropagate T.symbols size (T.clauses.getD idx ⟨[]⟩) st with
      | none => rw [hcp] at h; exact PRes.noConfusion h
      | some p =>
        rw [hcp] at h
        obtain ⟨st2, ch⟩ := p
        have hm := clausePropagate_mono (theoryWF_getD hwf idx) htern hcp
        have ih := propLoop_mono hwf fuel st2 (upd || ch) (if ch then 1 else counter + 1)
          (if T.clauses.length ≤ idx + 1 then 0 else idx + 1) (trace ++ [ch]) hm.2 h
        refine ⟨fun i c hnz => ?_, ih.2⟩
        rw [ih.1 i c (by rw [hm.1 i c hnz]; exact hnz), hm.1 i c hnz]
    · rw [if_neg hc] at h
      injection h with h1 h2 h3
      subst h1
      exact ⟨fun i c _ => rfl, htern⟩

theorem propLoop_clean {T : Theory} {size : Nat} :
    ∀ (fuel : Nat) (st : St) (upd : Bool) (counter idx : Nat) (trace : List Bool)
      {st' : St} {tr : List Bool},
    propLoop T size fuel st upd counter idx trace = PRes.ok st' false tr →
    upd = false ∧ tr = trace ++ List.replicate (T.clauses.length - counter) false
  | 0, st, upd, counter, idx, trace, st', tr, h => PRes.noConfusion h
  | fuel + 1, st, upd, counter, idx, trace, st', tr, h => by
    rw [propLoop] at h
    by_cases hc : counter < T.clauses.length
    · rw [if_pos hc] at h
      cases hcp : clausePropagate T.symbols size (T.clauses.getD idx ⟨[]⟩) st with
      | none => rw [hcp] at h; exact PRes.noConfusion h
      | some p =>
        rw [hcp] at h
        obtain ⟨st2, ch⟩ := p
        have ih := propLoop_clean fuel st2 (upd || ch) (if ch then 1 else counter + 1)
          (if T.clauses.length ≤ idx + 1 then 0 else idx + 1) (trace ++ [ch]) h
        obtain ⟨hor, htr⟩ := ih
        obtain ⟨hupd, hch⟩ : upd = false ∧ ch = false := by simpa using hor
        subst hch
        refine ⟨hupd, ?_⟩
        rw [htr]
        rw [if_neg (by decide)]
        have harith : T.clauses.length - counter = (T.clauses.length - (counter + 1)) + 1 := by
          omega
        rw [harith, List.append_assoc]
        rfl
    · rw [if_neg hc] at h
      injection h with h1 h2 h3
      have hn : T.clauses.length - counter = 0 := by omega
      rw [hn]
      exact ⟨h2, by rw [← h3]; simp⟩

theorem cleanSuffix_mono {tr : List Bool} {k k' : Nat} (hk : k' ≤ k)
    (h : cleanSuffix tr k = true) : cleanSuffix tr k' = true := by
  rw [cleanSuffix] at h ⊢
  rw [List.all_eq_true] at h ⊢
  intro b hb
  have hdd : tr.drop (tr.length - k') =
      (tr.drop (tr.length - k)).drop ((tr.length - k') - (tr.length - k)) := by
    rw [List.drop_drop]
    congr 1
    omega
  rw [hdd] at hb
  exact h b (List.mem_of_mem_drop hb)

theorem cleanSuffix_zero (tr : List Bool) : cleanSuffix tr 0 = true := by
  rw [cleanSuffix]
  simp

theorem cleanSuffix_snoc_false {tr : List Bool} {k : Nat}
    (h : cleanSuffix tr k = true) : cleanSuffix (tr ++ [false]) (k + 1) = true := by
  rw [cleanSuffix] at h ⊢
  have hlen : (tr ++ [false]).length - (k + 1) = tr.length - k := by
    simp
  rw [hlen, List.drop_append_of_le_length (by omega)]
  rw [List.all_append]
  rw [h]
  decide

/-- The streak invariant of `Theory.propagate`'s loop: the returned flag
is the disjunction of the visit trace, and on normal exit the final
counter has reached the clause count, so the last `counter - 1` visits
(hence the last `len(clauses) - 1`) were clean. -/
theorem propLoop_streak {T : Theory} {size : Nat} :
    ∀ (fuel : Nat) (st : St) (upd : Bool) (counter idx : Nat) (trace : List Bool)
      {st' : St} {u : Bool} {tr : List Bool},
    propLoop T size fuel st upd counter idx trace = PRes.ok st' u tr →
    upd = trace.any (fun b => b) →
    cleanSuffix trace (counter - 1) = true →
    u = tr.any (fun b => b) ∧
      ∃ cf, T.clauses.length ≤ cf ∧ cleanSuffix tr (cf - 1) = true
  | 0, st, upd, counter, idx, trace, st', u, tr, h, _, _ => PRes.noConfusion h
  | fuel + 1, st, upd, counter, idx, trace, st', u, tr, h, hupd, hclean => by
    rw [propLoop] at h
    by_cases hc : counter < T.clauses.length
    · rw [if_pos hc] at h
      cases hcp : clausePropagate T.symbols size (T.clauses.getD idx ⟨[]⟩) st with
      | none => rw [hcp] at h; exact PRes.noConfusion h
      | some p =>
        rw [hcp] at h
        obtain ⟨st2, ch⟩ := p
        refine propLoop_streak fuel st2 (upd || ch) (if ch then 1 else counter + 1)
          (if T.clauses.length ≤ idx + 1 then 0 else idx + 1) (trace ++ [ch]) h ?_ ?_
        · rw [hupd, List.any_append]
          simp
        · cases ch with
          | true => exact cleanSuffix_mono (by simp) (cleanSuffix_zero (trace ++ [true]))
          | false =>
            have := cleanSuffix_snoc_false hclean
            refine cleanSuffix_mono ?_ this
            have hif : (if (false : Bool) = true then 1 else counter + 1) = counter + 1 := rfl
            rw [hif]
            omega
    · rw [if_neg hc] at h
      injection h with h1 h2 h3
      subst h2; subst h3
      exact ⟨hupd, counter, by omega, hclean⟩

/-- If a run of the loop reports no change overall, the state is left
exactly unchanged and every clause of the theory propagates its input
state to itself with no change. -/
theorem propLoop_visits {T : Theory} {size : Nat} (hwf : TheoryWF T) :
    ∀ (fuel : Nat) (st : St) (upd : Bool) (counter idx : Nat) (trace : List Bool)
      {st' : St} {tr : List Bool},
    TernSt T.symbols size st →
    (T.clauses.length = 0 ∨ idx < T.clauses.length) →
    propLoop T size fuel st upd counter idx trace = PRes.ok st' false tr →
    st' = st ∧ ∀ k, counter + k < T.clauses.length →
      clausePropagate T.symbols size
        (T.clauses.getD ((idx + k) % T.clauses.length) ⟨[]⟩) st = some (st, false)
  | 0, st, upd, counter, idx, trace, st', tr, _, _, h => PRes.noConfusion h
  | fuel + 1, st, upd, counter, idx, trace, st', tr, htern, hidx, h => by
    rw [propLoop] at h
    by_cases hc : counter < T.clauses.length
    · rw [if_pos hc] at h
      cases hcp : clausePropagate T.symbols size (T.clauses.getD idx ⟨[]⟩) st with
      | none => rw [hcp] at h; exact PRes.noConfusion h
      | some p =>
        rw [hcp] at h
        obtain ⟨st2, ch⟩ := p
        have hch : ch = false := by
          have := (propLoop_clean _ _ _ _ _ _ h).1
          simpa using (by simpa using this : upd = false ∧ ch = false).2
        subst hch
        have hst2 : st2 = st :=
          clausePropagate_nochange (theoryWF_getD hwf idx) htern hcp
        rw [hst2] at hcp h
        have hn1 : 1 ≤ T.clauses.length := by omega
        have hidx' : T.clauses.length = 0 ∨
            (if T.clauses.length ≤ idx + 1 then 0 else idx + 1) < T.clauses.length := by
          right
          split
          · omega
          · omega
        have ih := propLoop_visits hwf fuel st (upd || false) (counter + 1)
          (if T.clauses.length ≤ idx + 1 then 0 else idx + 1) (trace ++ [false])
          htern hidx' h
        refine ⟨ih.1, ?_⟩
        intro k hk
        cases k with
        | zero =>
          have hidxlt : idx < T.clauses.length := by
            rcases hidx with h0 | h0
            · omega
            · exact h0
          rw [Nat.add_zero, Nat.mod_eq_of_lt hidxlt]
          exact hcp
        | succ k' =>
          have := ih.2 k' (by omega)
          have hmod : ((if T.clauses.length ≤ idx + 1 then 0 else idx + 1) + k') %
              T.clauses.length = (idx + (k' + 1)) % T.clauses.length := by
            split
            · next hge =>
              have hidxlt : idx < T.clauses.length := by
                rcases hidx with h0 | h0
                · omega
                · exact h0
              have h1 : idx + 1 = T.clauses.length := by omega
              rw [show idx + (k' + 1) = T.clauses.length + k' by omega]
              rw [Nat.add_mod_left]
              rw [Nat.zero_add]
            · rw [show idx + (k' + 1) = (idx + 1) + k' by omega]
          rw [← hmod]
          exact this
    · rw [if_neg hc] at h
      injection h with h1 h2 h3
      subst h1
      exact ⟨rfl, fun k hk => absurd hk (by omega)⟩

/-- A quiescent state: if every clause propagates the state to itself with
no change, the loop performs one clean sweep and stops. -/
theorem propLoop_quiescent {T : Theory} {size : Nat} {st : St}
    (hq : ∀ k < T.clauses.length,
      clausePropagate T.symbols size (T.clauses.getD k ⟨[]⟩) st = some (st, false)) :
    ∀ (fuel counter idx : Nat) (upd : Bool) (trace : List Bool),
    counter ≤ T.clauses.length →
    (idx = counter ∨ T.clauses.length ≤ counter) →
    (T.clauses.length = 0 ∨ idx < T.clauses.length) →
    T.clauses.length - counter < fuel →
    propLoop T size fuel st upd counter idx trace =
      PRes.ok st upd (trace ++ List.replicate (T.clauses.length - counter) false)
  | 0, counter, idx, upd, trace, _, _, _, hfuel => absurd hfuel (by omega)
  | fuel + 1, counter, idx, upd, trace, hcle, hinv, hidx, hfuel => by
    by_cases hc : counter < T.clauses.length
    · have hidxc : idx = counter := by
        rcases hinv with h0 | h0
        · exact h0
        · omega
      have hidxlt : idx < T.clauses.length := by omega
      have hstep : propLoop T size (fuel + 1) st upd counter idx trace =
          propLoop T size fuel st (upd || false) (counter + 1)
            (if T.clauses.length ≤ idx + 1 then 0 else idx + 1) (trace ++ [false]) := by
        rw [propLoop, if_pos hc, hq idx hidxlt]
        rfl
      rw [hstep, Bool.or_false]
      have hinv' : (if T.clauses.length ≤ idx + 1 then 0 else idx + 1) = counter + 1 ∨
          T.clauses.length ≤ counter + 1 := by
        by_cases hw : T.clauses.length ≤ idx + 1
        · rw [if_pos hw]
          right
          omega
        · rw [if_neg hw]
          left
          omega
      have hidx2 : T.clauses.length = 0 ∨
          (if T.clauses.length ≤ idx + 1 then 0 else idx + 1) < T.clauses.length := by
        right
        by_cases hw : T.clauses.length ≤ idx + 1
        · rw [if_pos hw]
          omega
        · rw [if_neg hw]
          omega
      have hrec := propLoop_quiescent hq fuel (counter + 1)
        (if T.clauses.length ≤ idx + 1 then 0 else idx + 1) upd (trace ++ [false])
        (by omega) hinv' hidx2 (by omega)
      rw [hrec]
      congr 1
      rw [show T.clauses.length - counter = (T.clauses.length - (counter + 1)) + 1 from
        by omega, List.append_assoc]
      rfl
    · rw [propLoop, if_neg hc]
      rw [show T.clauses.length - counter = 0 from by omega]
      rw [List.replicate_zero, List.append_nil]

/-! ## Concrete example theories -/

/-- Unary symbols `P` (index 0) and `Q` (index 1) with the single clause
`¬P(x) ∨ Q(x)`. -/
def exTheory : Theory := ⟨[1, 1], [⟨[⟨1, false, 0, [0]⟩, ⟨1, true, 1, [0]⟩]⟩]⟩

/-- `P` seeded true everywhere, `Q` unknown (universe size 1). -/
def exSeeded : St := fun i _ => if i = 0 then 1 else 0

/-- The all-unknown state. -/
def exZero : St := fun _ _ => 0

/-! ## C1: the scheduler's clean-streak loop -/

/-- C1 fails as stated: on a change the counter is set to 1, not 0, so the
clause that last changed is not re-visited.  With a single clause that
changes on its first visit the loop stops immediately after that visit:
the trace is `[true]`, so it is not the case that the last
`len(clauses)` visits were change-free. -/
theorem theory_propagate_streak_counterexample :
    propIsOkF exTheory 1 exSeeded 10 = true ∧
    propTraceF exTheory 1 exSeeded 10 = [true] ∧
    cleanSuffix (propTraceF exTheory 1 exSeeded 10) exTheory.clauses.length = false := by
  decide

/-- C1 amended: `Theory.propagate` visits clauses in a fixed cyclic order;
a reported change sets the clean-streak counter to one (the changed clause
counts itself), no change increments it, and the loop stops once the
counter reaches the clause count (immediately when the clause set is
empty).  Hence the flag returned is the disjunction of all per-visit
change flags, the last `len(clauses) - 1` visits reported no change, and
when no change at all occurred the trace is one clean sweep of all
clauses. -/
theorem theory_propagate_streak (T : Theory) (size : Nat) (st : St) (fuel : Nat)
    (h : propIsOkF T size st fuel = true) :
    propFlagF T size st fuel = (propTraceF T size st fuel).any (fun b => b) ∧
    cleanSuffix (propTraceF T size st fuel) (T.clauses.length - 1) = true ∧
    (propFlagF T size st fuel = false →
      propTraceF T size st fuel = List.replicate T.clauses.length false) := by
  cases hres : theoryPropagate T size st fuel with
  | conflict => rw [propIsOkF, hres] at h; exact absurd h (by decide)
  | timeout => rw [propIsOkF, hres] at h; exact absurd h (by decide)
  | ok st' u tr =>
    have hflag : propFlagF T size st fuel = u := by rw [propFlagF, hres]
    have htr : propTraceF T size st fuel = tr := by rw [propTraceF, hres]
    rw [hflag, htr]
    have hstreak := propLoop_streak fuel st false 0 0 [] hres (by decide) (by decide)
    obtain ⟨hu, cf, hcf, hclean⟩ := hstreak
    refine ⟨hu, cleanSuffix_mono (by omega) hclean, ?_⟩
    intro hfalse
    rw [hfalse] at hres
    have hcl := propLoop_clean fuel st false 0 0 [] hres
    rw [hcl.2]
    simp

/-- Witness for C1's amended theorem on the concrete one-clause theory. -/
theorem theory_propagate_streak_witness :
    propIsOkF exTheory 1 exSeeded 10 = true ∧
    (propFlagF exTheory 1 exSeeded 10 = (propTraceF exTheory 1 exSeeded 10).any (fun b => b) ∧
    cleanSuffix (propTraceF exTheory 1 exSeeded 10) (exTheory.clauses.length - 1) = true ∧
    (propFlagF exTheory 1 exSeeded 10 = false →
      propTraceF exTheory 1 exSeeded 10 = List.replicate exTheory.clauses.length false)) :=
  ⟨by decide, theory_propagate_streak exTheory 1 exSeeded 10 (by decide)⟩

/-! ## C3: monotonicity across propagation -/

/-- C3: across any sequence of `Theory.propagate` calls on a ternary
state, a table cell that is non-zero (known) never changes again —
propagation only moves cells from unknown to known, and an attempted sign
flip raises instead of writing. -/
theorem propagate_monotone (T : Theory) (size : Nat) (fuels : List Nat) (st : St)
    (hwf : TheoryWF T) (htern : TernSt T.symbols size st) :
    ∀ i c, st i c ≠ 0 → seqStateF T size fuels st i c = st i c := by
  induction fuels generalizing st with
  | nil =>
    intro i c _
    rw [seqStateF, propagateSeq]
    rfl
  | cons f fs ih =>
    intro i c hnz
    cases hres : theoryPropagate T size st f with
    | conflict =>
      rw [seqStateF, propagateSeq, hres]
      rfl
    | timeout =>
      rw [seqStateF, propagateSeq, hres]
      rfl
    | ok st' u tr =>
      have hgoal : seqStateF T size (f :: fs) st = (propagateSeq T size fs st').getD st := by
        rw [seqStateF, propagateSeq, hres]
      rw [hgoal]
      have hm := propLoop_mono hwf f st false 0 0 [] htern hres
      have hnz' : st' i c ≠ 0 := by rw [hm.1 i c hnz]; exact hnz
      have ih' := ih st' hm.2 i c hnz'
      cases hseq : propagateSeq T size fs st' with
      | none => rfl
      | some stf =>
        rw [seqStateF, hseq] at ih'
        calc (some stf).getD st i c = stf i c := rfl
          _ = st' i c := ih'
          _ = st i c := hm.1 i c hnz

/-- Witness for C3 on the concrete seeded theory: the known cell `P(0)`
survives a propagation call that forces `Q(0)`. -/
theorem propagate_monotone_witness :
    TheoryWF exTheory ∧ TernSt exTheory.symbols 1 exSeeded ∧
    (∀ i c, exSeeded i c ≠ 0 → seqStateF exTheory 1 [10] exSeeded i c = exSeeded i c) :=
  ⟨by decide, by decide, propagate_monotone exTheory 1 [10] exSeeded (by decide) (by decide)⟩

/-! ## C5: idempotence at quiescence -/

/-- C5: if `Theory.propagate` reports no change, every symbol table (and
hence every clause's satisfied status) is exactly unchanged, and running
`Theory.propagate` again (with fuel for one sweep) again reports no change
with every table once more unchanged. -/
theorem propagate_idempotent (T : Theory) (size : Nat) (st : St) (fuel : Nat)
    (hwf : TheoryWF T) (htern : TernSt T.symbols size st)
    (hok : propIsOkF T size st fuel = true)
    (hflag : propFlagF T size st fuel = false) :
    (∀ i c, propStateF T size st fuel i c = st i c) ∧
    (∀ cl ∈ T.clauses, clauseSatisfied T.symbols size cl (propStateF T size st fuel) =
      clauseSatisfied T.symbols size cl st) ∧
    (∀ fuel2, T.clauses.length < fuel2 →
      theoryPropagate T size (propStateF T size st fuel) fuel2 =
        PRes.ok (propStateF T size st fuel) false
          (List.replicate T.clauses.length false)) := by
  cases hres : theoryPropagate T size st fuel with
  | conflict => rw [propIsOkF, hres] at hok; exact absurd hok (by decide)
  | timeout => rw [propIsOkF, hres] at hok; exact absurd hok (by decide)
  | ok st' u tr =>
    have hstf : propStateF T size st fuel = st' := by rw [propStateF, hres]
    have hu : u = false := by rw [propFlagF, hres] at hflag; exact hflag
    rw [hu] at hres
    have hv := propLoop_visits hwf fuel st false 0 0 [] htern
      (by rcases Nat.eq_zero_or_pos T.clauses.length with h0 | h0
          · exact Or.inl h0
          · exact Or.inr h0) hres
    obtain ⟨hst, hfacts⟩ := hv
    rw [hstf, hst]
    refine ⟨fun i c => rfl, fun cl _ => rfl, ?_⟩
    intro fuel2 hf2
    have hq : ∀ k < T.clauses.length,
        clausePropagate T.symbols size (T.clauses.getD k ⟨[]⟩) st = some (st, false) := by
      intro k hk
      have hf := hfacts k (by omega)
      rw [Nat.zero_add, Nat.mod_eq_of_lt hk] at hf
      exact hf
    have hrun := propLoop_quiescent hq fuel2 0 0 false [] (by omega) (Or.inl rfl)
      (by rcases Nat.eq_zero_or_pos T.clauses.length with h0 | h0
          · exact Or.inl h0
          · exact Or.inr h0) (by omega)
    rw [theoryPropagate, hrun]
    rw [Nat.sub_zero, List.nil_append]

/-- Witness for C5 on the quiescent all-unknown state of the concrete
theory. -/
theorem propagate_idempotent_witness :
    TheoryWF exTheory ∧ TernSt exTheory.symbols 1 exZero ∧
    propIsOkF exTheory 1 exZero 5 = true ∧ propFlagF exTheory 1 exZero 5 = false ∧
    ((∀ i c, propStateF exTheory 1 exZero 5 i c = exZero i c) ∧
    (∀ cl ∈ exTheory.clauses, clauseSatisfied exTheory.symbols 1 cl
        (propStateF exTheory 1 exZero 5) = clauseSatisfied exTheory.symbols 1 cl exZero) ∧
    (∀ fuel2, exTheory.clauses.length < fuel2 →
      theoryPropagate exTheory 1 (propStateF exTheory 1 exZero 5) fuel2 =
        PRes.ok (propStateF exTheory 1 exZero 5) false
          (List.replicate exTheory.clauses.length false))) :=
  ⟨by decide, by decide, by decide, by decide,
    propagate_idempotent exTheory 1 exZero 5 (by decide) (by decide) (by decide) (by decide)⟩

/-! ## C9: unit-clause initialization -/

theorem maskTrans_allTrue (arity : Nat) (vars : List Nat) (c : Ix) :
    maskTrans arity vars (fun _ => true) c = true := rfl

theorem maskReduced_allTrue (arity size : Nat) (vars : List Nat) (c : Ix) (hsz : 1 ≤ size) :
    maskReduced arity size vars (fun _ => true) c = true := by
  rw [maskReduced]
  split
  · exact List.any_eq_true.mpr ⟨List.replicate (arity - (dvars vars).length) 0,
      replicate_mem_allIx hsz, maskTrans_allTrue _ _ _⟩
  · exact maskTrans_allTrue _ _ _

/-- The all-true broadcast mask of `set_constant` projects onto every
diagonal symbol cell reached by the variable map. -/
theorem litFinalMask_allTrue {syms : List Nat} {size : Nat} {lit : Literal} {b : Ix}
    (hwf : LitWF syms lit) (hsz : 1 ≤ size) (hb : validIx lit.arity size b = true) :
    litFinalMask syms size lit (fun _ => true)
      (lit.vars.map fun p => b.getD p 0) = true := by
  rw [litFinalMask]
  rw [Bool.and_eq_true_iff]
  constructor
  · exact maskReduced_allTrue _ _ _ _ hsz
  · rw [equsB, Bool.and_eq_true_iff]
    have hbs : ∀ x ∈ b, x < size := by
      rw [validIx, Bool.and_eq_true_iff] at hb
      have := hb.2
      rw [List.all_eq_true] at this
      intro x hx
      simpa using this x hx
    constructor
    · rw [validIx, Bool.and_eq_true_iff]
      constructor
      · simp [hwf.2]
      · rw [List.all_eq_true]
        intro x hx
        obtain ⟨p, -, rfl⟩ := List.mem_map.mp hx
        simpa using validIx_getD_lt hsz b p hbs
    · rw [List.all_eq_true]
      intro idx hidx
      rw [List.mem_range] at hidx
      rw [Bool.or_eq_true]
      by_cases hlt : firstIdx lit.vars (lit.vars.getD idx 0) < idx
      · right
        rw [decide_eq_true_eq]
        have hm : lit.vars.getD idx 0 ∈ lit.vars := getD_mem 0 _ idx hidx
        have hpl : firstIdx lit.vars (lit.vars.getD idx 0) < lit.vars.length :=
          firstIdx_lt_length hm
        rw [getD_map_eq _ _ hpl, getD_map_eq _ _ hidx, getD_firstIdx hm]
      · left
        simpa using hlt

/-- A successful `set_constant(1)` forces the literal's symbol cell at
every binding to the sign-adjusted value. -/
theorem litSetConstant_forces {syms : List Nat} {size : Nat} {lit : Literal}
    {st st' : St} {ch : Bool} (hwf : LitWF syms lit) (hsz : 1 ≤ size)
    (h : litSetConstant syms size lit 1 st = some (st', ch)) (b : Ix)
    (hb : validIx lit.arity size b = true) :
    st' lit.symIdx (lit.vars.map fun p => b.getD p 0) =
      (if lit.sign then 1 else -1) := by
  rw [litSetConstant, litUpdateMasked] at h
  rw [if_neg (not_not_intro (Or.inr (Or.inr rfl)))] at h
  have hany : ((allIx lit.arity size).any fun _ => true) = true :=
    List.any_eq_true.mpr ⟨List.replicate lit.arity 0, replicate_mem_allIx hsz, rfl⟩
  rw [if_neg (by simpa using hany)] at h
  by_cases hkeep : (dvars lit.vars).length = 0
  · rw [if_pos hkeep] at h
    obtain ⟨p, hp, hpe⟩ := Option.map_eq_some'.mp h
    have hp' := (updateMasked_eq_some (by rw [hp]; exact Option.some_ne_none _)).symm.trans hp
    have hfst : (fun j => if j = lit.symIdx then p.1 else st j) = st' :=
      congrArg Prod.fst hpe
    have hb1 := congrArg Prod.fst (Option.some_injective _ hp')
    have hvars : lit.vars = [] := by
      by_contra hne
      exact dvars_ne_nil hne (List.eq_nil_of_length_eq_zero hkeep)
    have hstp : st' lit.symIdx = p.1 := by
      rw [← hfst]
      simp
    rw [hvars]
    rw [show (([] : List Nat).map fun p => b.getD p 0) = [] from rfl]
    rw [hstp, ← hb1]
    have hmr := maskReduced_allTrue lit.arity size lit.vars [] hsz
    simp [hmr]
  · rw [if_neg hkeep] at h
    obtain ⟨p, hp, hpe⟩ := Option.map_eq_some'.mp h
    have hp' := (updateMasked_eq_some (by rw [hp]; exact Option.some_ne_none _)).symm.trans hp
    have hfst : (fun j => if j = lit.symIdx then p.1 else st j) = st' :=
      congrArg Prod.fst hpe
    have hb1 := congrArg Prod.fst (Option.some_injective _ hp')
    have hstp : st' lit.symIdx = p.1 := by
      rw [← hfst]
      simp
    rw [hstp, ← hb1]
    show (if litFinalMask syms size lit (fun _ => true)
        (lit.vars.map fun p => b.getD p 0) = true then (if lit.sign then (1 : Int) else -1)
      else st lit.symIdx (lit.vars.map fun p => b.getD p 0)) = (if lit.sign then 1 else -1)
    rw [litFinalMask_allTrue hwf hsz hb]
    rw [if_pos rfl]

theorem clauseCreateTables_mono {syms : List Nat} {size : Nat} {cl : Clause}
    {st st' : St} (hwf : ClauseWF syms cl) (htern : TernSt syms size st)
    (h : clauseCreateTables syms size cl st = some st') :
    (∀ i c, st i c ≠ 0 → st' i c = st i c) ∧ TernSt syms size st' := by
  rw [clauseCreateTables] at h
  by_cases hone : cl.literals.length = 1
  · rw [if_pos hone] at h
    obtain ⟨p, hp, hpe⟩ := Option.map_eq_some'.mp h
    obtain ⟨st2, ch⟩ := p
    have hpe' : st2 = st' := hpe
    subst hpe'
    have hwl : LitWF syms (cl.literals.getD 0 ⟨0, true, 0, []⟩) :=
      hwf _ (getD_mem _ _ 0 (by omega))
    exact ⟨litUpdateMasked_mono hwl (Or.inl rfl) htern hp,
      litUpdateMasked_tern hwl (Or.inl rfl) htern hp⟩
  · rw [if_neg hone] at h
    have h1 : st = st' := Option.some_injective _ h
    exact ⟨fun i c _ => (congrFun (congrFun h1 i) c).symm, h1 ▸ htern⟩

theorem createTablesGo_mono {syms : List Nat} {size : Nat} :
    ∀ (cls : List Clause) (st : St) {st' : St},
    (∀ cl ∈ cls, ClauseWF syms cl) → TernSt syms size st →
    createTablesGo syms size cls st = some st' →
    (∀ i c, st i c ≠ 0 → st' i c = st i c) ∧ TernSt syms size st'
  | [], st, st', _, htern, h => by
    rw [createTablesGo] at h
    have h1 : st = st' := Option.some_injective _ h
    exact ⟨fun i c _ => (congrFun (congrFun h1 i) c).symm, h1 ▸ htern⟩
  | cl :: cls, st, st', hwf, htern, h => by
    rw [createTablesGo] at h
    cases hcl : clauseCreateTables syms size cl st with
    | none => rw [hcl] at h; exact absurd h (by simp)
    | some st2 =>
      rw [hcl] at h
      have hm := clauseCreateTables_mono (hwf cl (by simp)) htern hcl
      have ih := createTablesGo_mono cls st2 (fun cl' hc => hwf cl' (by simp [hc])) hm.2 h
      refine ⟨fun i c hnz => ?_, ih.2⟩
      rw [ih.1 i c (by rw [hm.1 i c hnz]; exact hnz), hm.1 i c hnz]

theorem createTablesGo_append {syms : List Nat} {size : Nat} :
    ∀ (l1 l2 : List Clause) (st : St),
    createTablesGo syms size (l1 ++ l2) st =
      match createTablesGo syms size l1 st with
      | none => none
      | some st2 => createTablesGo syms size l2 st2
  | [], l2, st => by rw [List.nil_append, createTablesGo]
  | cl :: l1, l2, st => by
    rw [List.cons_append, createTablesGo, createTablesGo]
    cases hcl : clauseCreateTables syms size cl st with
    | none => rfl
    | some st2 => exact createTablesGo_append l1 l2 st2

/-- The all-unknown state is ternary. -/
theorem ternSt_zero (syms : List Nat) (size : Nat) :
    TernSt syms size (fun _ _ => 0) := fun _ _ _ _ => Or.inr (Or.inl rfl)

/-- C9: a clause consisting of exactly one literal forces that literal
true at every variable binding already during `Theory.create_tables`
— reading the symbol through the literal's variable map yields `+1` at
every valid binding of the final initialized state, with no call to
`propagate` needed. -/
theorem unit_clause_initialization (T : Theory) (size : Nat) (cl : Clause) (lit : Literal)
    (hwf : TheoryWF T) (hsz : 1 ≤ size) (hmem : cl ∈ T.clauses)
    (hone : cl.literals = [lit]) (hok : (createTables T size).isSome = true) :
    ∀ b, validIx lit.arity size b = true → litGetValue lit (createStateF T size) b = 1 := by
  intro b hb
  obtain ⟨pre, post, hsplit⟩ := List.append_of_mem hmem
  have hct : createTables T size =
      createTablesGo T.symbols size (pre ++ cl :: post) (fun _ _ => 0) := by
    rw [createTables, hsplit]
  rw [createTablesGo_append] at hct
  cases hpre : createTablesGo T.symbols size pre (fun _ _ => 0) with
  | none =>
    rw [hpre] at hct
    have hct' : createTables T size = none := hct
    rw [hct'] at hok
    exact absurd hok (by decide)
  | some st1 =>
    rw [hpre] at hct
    have hct1 : createTables T size = createTablesGo T.symbols size (cl :: post) st1 := hct
    have hpreWF : ∀ cl' ∈ pre, ClauseWF T.symbols cl' := by
      intro cl' hc
      exact hwf cl' (by rw [hsplit]; exact List.mem_append_of_mem_left _ hc)
    have htern1 : TernSt T.symbols size st1 :=
      (createTablesGo_mono pre _ hpreWF (ternSt_zero _ _) hpre).2
    cases hcl : clauseCreateTables T.symbols size cl st1 with
    | none =>
      have hct' : createTables T size = none := by
        rw [hct1, createTablesGo, hcl]
      rw [hct'] at hok
      exact absurd hok (by decide)
    | some st2 =>
      have hct : createTables T size = createTablesGo T.symbols size post st2 := by
        rw [hct1, createTablesGo, hcl]
      have hwl : LitWF T.symbols lit := by
        refine hwf cl hmem lit ?_
        rw [hone]
        simp
      rw [clauseCreateTables, hone] at hcl
      rw [if_pos (show ([lit] : List Literal).length = 1 from rfl)] at hcl
      obtain ⟨p, hp, hpe⟩ := Option.map_eq_some'.mp hcl
      obtain ⟨st2', ch⟩ := p
      have hpe' : st2' = st2 := hpe
      have hgetd : ([lit].getD 0 ⟨0, true, 0, []⟩) = lit := rfl
      rw [hgetd, hpe'] at hp
      have hcell := litSetConstant_forces hwl hsz hp b hb
      have htern2 : TernSt T.symbols size st2 :=
        litUpdateMasked_tern hwl (Or.inl rfl) htern1 hp
      have hpostWF : ∀ cl' ∈ post, ClauseWF T.symbols cl' := by
        intro cl' hc
        refine hwf cl' ?_
        rw [hsplit]
        exact List.mem_append_of_mem_right _ (List.mem_cons_of_mem _ hc)
      cases hpost : createTablesGo T.symbols size post st2 with
      | none =>
        rw [hpost] at hct
        rw [hct] at hok
        exact absurd hok (by decide)
      | some stf =>
        rw [hpost] at hct
        have hcsf : createStateF T size = stf := by
          rw [createStateF, hct]
          rfl
        have hmono := (createTablesGo_mono post _ hpostWF htern2 hpost).1
        have hnz : st2 lit.symIdx (lit.vars.map fun p => b.getD p 0) ≠ 0 := by
          rw [hcell]
          cases lit.sign <;> simp
        have hcellf : stf lit.symIdx (lit.vars.map fun p => b.getD p 0) =
            (if lit.sign then 1 else -1) := by
          rw [hmono _ _ hnz, hcell]
        have hval : litGetValue lit stf b =
            if lit.sign then stf lit.symIdx (lit.vars.map fun p => b.getD p 0)
            else -(stf lit.symIdx (lit.vars.map fun p => b.getD p 0)) := rfl
        rw [hcsf, hval]
        cases hs : lit.sign
        · rw [hs] at hcellf
          rw [if_neg (by decide)]
          rw [hcellf]
          decide
        · rw [hs] at hcellf
          rw [if_pos (show (true : Bool) = true from rfl)]
          rw [hcellf]
          decide

/-- Witness for C9: a single unit clause `+P(x)` over a unary symbol with
universe size 3 yields `P` all true right after initialization. -/
theorem unit_clause_initialization_witness :
    TheoryWF ⟨[1], [⟨[⟨1, true, 0, [0]⟩]⟩]⟩ ∧ 1 ≤ 3 ∧
    (⟨[⟨1, true, 0, [0]⟩]⟩ : Clause) ∈ (⟨[1], [⟨[⟨1, true, 0, [0]⟩]⟩]⟩ : Theory).clauses ∧
    (⟨[⟨1, true, 0, [0]⟩]⟩ : Clause).literals = [⟨1, true, 0, [0]⟩] ∧
    (createTables ⟨[1], [⟨[⟨1, true, 0, [0]⟩]⟩]⟩ 3).isSome = true ∧
    (∀ b, validIx (1 : Nat) 3 b = true →
      litGetValue ⟨1, true, 0, [0]⟩ (createStateF ⟨[1], [⟨[⟨1, true, 0, [0]⟩]⟩]⟩ 3) b = 1) :=
  ⟨by decide, by decide, by decide, by decide, by decide,
    unit_clause_initialization ⟨[1], [⟨[⟨1, true, 0, [0]⟩]⟩]⟩ 3 ⟨[⟨1, true, 0, [0]⟩]⟩
      ⟨1, true, 0, [0]⟩ (by decide) (by decide) (by decide) (by decide) (by decide)⟩

end Relsat
